import Mathlib

/-!
Shallow embedding of the GRP codec of the `irongrp` repository (src/grp.rs and
src/png.rs), together with theorems settling the specification claims about it.

Bytes and pixel values are modelled as `Nat` (the Rust code uses `u8`; theorems
carry `< 256` bounds where the claims state them).  Machine-integer wraparound
that the Rust code can actually perform (`u16` index arithmetic, `u16` offset
arithmetic) is modelled explicitly with `% 65536`.  Loops are modelled as
structurally recursive functions on an explicit fuel argument chosen large
enough that the fuel can never run out for the loop's own bound (each place
states why), so that every definition evaluates by kernel reduction.
-/

namespace Irongrp

/-- `CompressionType` of the CLI (src/lib.rs); `Auto` is resolved before any of
the functions modelled here run, so it is omitted. -/
inductive CompressionType where
  | Normal
  | Optimised
  | Uncompressed
  | War1
deriving DecidableEq, Repr

/-- `GrpType` from src/grp.rs. -/
inductive GrpType where
  | Normal
  | Uncompressed
  | UncompressedExtended
  | War1
deriving DecidableEq, Repr

/-- `ImageData` from src/grp.rs. -/
structure ImageData where
  row_offsets : List Nat
  raw_row_data : List (List Nat)
  converted_pixels : List Nat
  grp_type : GrpType
deriving DecidableEq, Repr

/-- `GrpFrame` from src/grp.rs (`x_offset`, `y_offset`, `width`, `height` are
`u8` in the source, `image_data_offset` is `u32`). -/
structure GrpFrame where
  x_offset : Nat
  y_offset : Nat
  width : Nat
  height : Nat
  image_data_offset : Nat
  image_data : ImageData
deriving DecidableEq, Repr

/-- `GrpHeader` from src/grp.rs. -/
structure GrpHeader where
  frame_count : Nat
  max_width : Nat
  max_height : Nat
deriving DecidableEq, Repr

/-! ## The RLE row decoder (src/grp.rs, `decode_grp_rle_row`) -/

/-- Inner loop of the Run branch of `decode_grp_rle_row` (src/grp.rs:422-432):
`for _ in 0..run_length { if x >= image_width { break; } line_pixels[x] = colour_index; x += 1; }`.
Returns the updated output row and cursor. -/
def fillRun (image_width : Nat) (out : List Nat) (x colour_index : Nat) : Nat → List Nat × Nat
  | 0 => (out, x)
  | n + 1 =>
    if x ≥ image_width then (out, x)
    else fillRun image_width (out.set x colour_index) (x + 1) colour_index n

/-- Inner loop of the Literal branch of `decode_grp_rle_row` (src/grp.rs:443-456):
copies `copy_length` bytes unless the output row fills up or the window runs out.
Returns the updated output row, output cursor and input cursor. -/
def copyLit (line_data : List Nat) (image_width : Nat) (out : List Nat) (x data_offset : Nat) :
    Nat → List Nat × Nat × Nat
  | 0 => (out, x, data_offset)
  | n + 1 =>
    if x ≥ image_width ∨ data_offset ≥ line_data.length then (out, x, data_offset)
    else
      copyLit line_data image_width (out.set x (line_data.getD data_offset 0)) (x + 1)
        (data_offset + 1) n

/-- The `while x < image_width && data_offset < line_data.len()` loop of
`decode_grp_rle_row` (src/grp.rs:393-467).  The fuel is scaffolding only:
`data_offset` strictly increases on every iteration, so
`line_data.length + 1` iterations always suffice from `data_offset = 0`. -/
def decodeLoop (line_data : List Nat) (image_width : Nat) :
    Nat → Nat → Nat → List Nat → List Nat × Nat
  | 0, _x, data_offset, out => (out, data_offset)
  | fuel + 1, x, data_offset, out =>
    if x < image_width ∧ data_offset < line_data.length then
      let control_byte := line_data.getD data_offset 0
      let off1 := data_offset + 1
      if control_byte &&& 0x80 ≠ 0 then
        -- Transparent: skip `control_byte & 0x7F` pixels
        decodeLoop line_data image_width fuel (x + (control_byte &&& 0x7F)) off1 out
      else if control_byte &&& 0x40 ≠ 0 then
        -- Run-length encoding: repeat the next byte `control_byte & 0x3F` times
        if off1 ≥ line_data.length then (out, off1) -- safety check: no value byte follows
        else
          let colour_index := line_data.getD off1 0
          let fr := fillRun image_width out x colour_index (control_byte &&& 0x3F)
          decodeLoop line_data image_width fuel fr.2 (off1 + 1) fr.1
      else
        -- Literal: copy `control_byte` bytes directly
        let copy_length := control_byte
        let cl := copyLit line_data image_width out x off1 copy_length
        let off2 := if copy_length = 0 then cl.2.2 + 1 else cl.2.2
        decodeLoop line_data image_width fuel cl.2.1 off2 cl.1
    else (out, data_offset)

/-- `decode_grp_rle_row` from src/grp.rs:388: decodes an RLE row into
`image_width` pixels (missing pixels stay 0) and reports the bytes consumed. -/
def decode_grp_rle_row (line_data : List Nat) (image_width : Nat) : List Nat × Nat :=
  decodeLoop line_data image_width (line_data.length + 1) 0 0 (List.replicate image_width 0)

/-! ## The RLE row encoder (src/grp.rs, `encode_grp_rle_row`) -/

/-- The run-measuring scans of `encode_grp_rle_row` (src/grp.rs:510-512, 521-527):
`while i + run_len < len && row_pixels[i + run_len] == colour && run_len < cap { run_len += 1 }`.
Fuel is scaffolding: `run_len < cap` is required to continue, so `cap` iterations
always suffice from `run_len = 1`. -/
def runScan (row_pixels : List Nat) (i colour cap : Nat) : Nat → Nat → Nat
  | 0, run_len => run_len
  | fuel + 1, run_len =>
    if i + run_len < row_pixels.length ∧ row_pixels.getD (i + run_len) 0 = colour ∧ run_len < cap
    then runScan row_pixels i colour cap fuel (run_len + 1)
    else run_len

/-- The Literal-accumulating `for x in i..row_pixels.len()` loop of
`encode_grp_rle_row` (src/grp.rs:549-586).  `normalOrder` selects which of the
two break tests (length cap 63, same-colour sub-run) is checked first, as the
source keys on `compression_type == CompressionType::Normal`.  Fuel is
scaffolding: the `for` range has `row_pixels.length - x` iterations left. -/
def litScan (row_pixels : List Nat) (normalOrder : Bool) (same_colour_threshold : Nat) :
    Nat → Nat → Nat → Nat → Nat → Nat
  | 0, _x, run_len, _last_colour, _last_colour_len => run_len
  | fuel + 1, x, run_len, last_colour, last_colour_len =>
    if x < row_pixels.length then
      let p := row_pixels.getD x 0
      if p = 0 then run_len
      else
        let fresh := p ≠ last_colour ∨ last_colour_len = 0
        let lc := if fresh then p else last_colour
        let lcl := if fresh then 1 else last_colour_len + 1
        if normalOrder then
          if run_len ≥ 63 then run_len
          else if lcl > same_colour_threshold then run_len - same_colour_threshold
          else litScan row_pixels normalOrder same_colour_threshold fuel (x + 1) (run_len + 1) lc lcl
        else
          if lcl > same_colour_threshold then run_len - same_colour_threshold
          else if run_len ≥ 63 then run_len
          else litScan row_pixels normalOrder same_colour_threshold fuel (x + 1) (run_len + 1) lc lcl
    else run_len

/-- The main `while i < row_pixels.len()` loop of `encode_grp_rle_row`
(src/grp.rs:495-597) including the `safety_break` cap: the iteration whose
incremented counter exceeds 4096 stops the loop.  Fuel is scaffolding:
`4097 - safety_break` iterations always suffice. -/
def encodeLoop (row_pixels : List Nat) (normalOrder : Bool) (same_colour_threshold : Nat) :
    Nat → Nat → Nat → List Nat
  | 0, _i, _safety_break => []
  | fuel + 1, i, safety_break =>
    if i < row_pixels.length then
      let sb := safety_break + 1
      if sb > 4096 then []
      else
        let current_colour := row_pixels.getD i 0
        if current_colour = 0 then
          -- Case 1: transparent run (cap 127)
          let run_len := runScan row_pixels i 0 127 127 1
          (0x80 ||| run_len) ::
            encodeLoop row_pixels normalOrder same_colour_threshold fuel (i + run_len) sb
        else
          let run_len := runScan row_pixels i current_colour 63 63 1
          if run_len > same_colour_threshold then
            -- Case 2: run of the same colour
            (0x40 ||| run_len) :: current_colour ::
              encodeLoop row_pixels normalOrder same_colour_threshold fuel (i + run_len) sb
          else
            -- Case 3: literal copy
            let lit_len := litScan row_pixels normalOrder same_colour_threshold
              (row_pixels.length - i) i 0 0 0
            lit_len :: ((row_pixels.drop i).take lit_len ++
              encodeLoop row_pixels normalOrder same_colour_threshold fuel (i + lit_len) sb)
    else []

/-- `encode_grp_rle_row` from src/grp.rs:474.  `same_colour_threshold` is 3 for
`Normal` and 2 otherwise, and the break order inside literals also keys on
`Normal`, exactly as the source does. -/
def encode_grp_rle_row (row_pixels : List Nat) (compression_type : CompressionType) : List Nat :=
  let same_colour_threshold := if compression_type == CompressionType.Normal then 3 else 2
  encodeLoop row_pixels (compression_type == CompressionType.Normal) same_colour_threshold 4097 0 0

/-! ## Extended-width handling (src/grp.rs:164-188, 1502-1503) -/

def EXTENDED_OFFSET_BIT : Nat := 0x80000000

def EXTENDED_IMAGE_WIDTH : Nat := 256

/-- `offset_is_extended` from src/grp.rs:164. -/
def offset_is_extended (offset : Nat) : Bool := offset &&& EXTENDED_OFFSET_BIT != 0

/-- `image_should_be_extended` from src/grp.rs:168. -/
def image_should_be_extended (width : Nat) : Bool := decide (width ≥ EXTENDED_IMAGE_WIDTH)

/-- `adjust_width_and_offset_if_extended_when_decoding` from src/grp.rs:172.  The
source clears the high bit with `offset & EXTENDED_OFFSET_BIT - 1`, which by
Rust precedence is `offset & (EXTENDED_OFFSET_BIT - 1)`. -/
def adjust_width_and_offset_if_extended_when_decoding (width image_data_offset : Nat) :
    Nat × Nat :=
  if offset_is_extended image_data_offset then
    (width + EXTENDED_IMAGE_WIDTH, image_data_offset &&& (EXTENDED_OFFSET_BIT - 1))
  else (width, image_data_offset)

/-- `adjust_width_and_offset_if_extended_when_encoding` from src/grp.rs:183. -/
def adjust_width_and_offset_if_extended_when_encoding (width offset : Nat) : Nat × Nat :=
  if image_should_be_extended width then
    (width - EXTENDED_IMAGE_WIDTH, offset ||| EXTENDED_OFFSET_BIT)
  else (width, offset)

/-! ## Frame assembly (src/grp.rs, `encode_grp_rle_data` and friends) -/

/-- Truncating cast to `u16` (Rust release-mode semantics). -/
def u16 (n : Nat) : Nat := n % 65536

/-- Wrapping `u16` subtraction of an already-reduced value. -/
def u16sub (a b : Nat) : Nat := (u16 a + 65536 - u16 b) % 65536

/-- The `for overlap_len in (1..=max_overlap).rev()` loop of
`find_longest_overlap` (src/grp.rs:602), counting down from `k`. -/
def findOverlapFrom (row1 row2 : List Nat) : Nat → Nat
  | 0 => 0
  | k + 1 =>
    if row1.drop (row1.length - (k + 1)) = row2.take (k + 1) then k + 1
    else findOverlapFrom row1 row2 k

/-- `find_longest_overlap` from src/grp.rs:602: the longest `k` such that the
last `k` bytes of `row1` equal the first `k` bytes of `row2` (0 if none). -/
def find_longest_overlap (row1 row2 : List Nat) : Nat :=
  findOverlapFrom row1 row2 (min row1.length row2.length)

/-- Loop state of `encode_grp_rle_data` (src/grp.rs:614). -/
structure RleDataState where
  raw_row_data : List (List Nat)
  rle_data : List Nat
  row_offsets : List Nat
  prev_row : Option (List Nat)
deriving DecidableEq, Repr

/-- One iteration of the `for row in 0..height` loop of `encode_grp_rle_data`
(src/grp.rs:620-653).  `row_start_offset` is computed in `u16` arithmetic as in
the source (`rle_data.len() as u16 + (height * 2)`), and the stored offset is
`row_start_offset - offset_overlap`, where `offset_overlap` is the inter-row
overlap whenever there is a previous row and the mode is `Optimised` (the
`overlap > 1` test in the source only guards a log statement), and 0 otherwise. -/
def encodeRleDataStep (width height : Nat) (pixels : List Nat)
    (compression_type : CompressionType) (st : RleDataState) (row : Nat) : RleDataState :=
  let row_start_offset := u16 (u16 st.rle_data.length + u16 (height * 2))
  let row_pixels := (pixels.drop (row * width)).take width
  let encoded_row := encode_grp_rle_row row_pixels compression_type
  let offset_overlap :=
    if st.prev_row.isSome && (compression_type == CompressionType.Optimised) then
      u16 (find_longest_overlap (st.prev_row.getD []) encoded_row)
    else 0
  { raw_row_data := st.raw_row_data ++ [encoded_row]
    rle_data := st.rle_data ++ encoded_row
    row_offsets := st.row_offsets ++ [u16sub row_start_offset offset_overlap]
    prev_row := some encoded_row }

/-- `encode_grp_rle_data` from src/grp.rs:614. -/
def encode_grp_rle_data (width height : Nat) (pixels : List Nat)
    (compression_type : CompressionType) : ImageData :=
  let st := (List.range height).foldl (encodeRleDataStep width height pixels compression_type)
    { raw_row_data := [], rle_data := [], row_offsets := [], prev_row := none }
  { row_offsets := st.row_offsets
    raw_row_data := st.raw_row_data
    converted_pixels := pixels
    grp_type := GrpType.Normal }

/-- `read_uncompressed_pixels` from src/grp.rs:304: splits the pixel buffer into
`height` rows of `width` bytes. -/
def read_uncompressed_pixels (width height : Nat) (pixels : List Nat) : List (List Nat) :=
  (List.range height).map (fun row => (pixels.drop (row * width)).take width)

/-- `encode_uncompressed_grp` from src/grp.rs:664. -/
def encode_uncompressed_grp (width height : Nat) (pixels : List Nat) (extended_width : Bool) :
    ImageData :=
  { row_offsets := []
    raw_row_data := read_uncompressed_pixels width height pixels
    converted_pixels := pixels
    grp_type := if extended_width then GrpType.UncompressedExtended else GrpType.Uncompressed }

/-- `GrpFrame::grp_frame_len` from src/grp.rs:59. -/
def grp_frame_len (f : GrpFrame) : Nat :=
  f.image_data.row_offsets.length * 2 + (f.image_data.raw_row_data.map List.length).sum

/-- `ImageWithMetadata<u8, u16>` (src/palpng.rs:13) as consumed by
`files_to_grp`: an already-loaded, quantized and trimmed input image. -/
structure InputImage where
  x_offset : Nat
  y_offset : Nat
  width : Nat
  height : Nat
  original_width : Nat
  original_height : Nat
  image_data : List Nat
deriving DecidableEq, Repr

/-- `png_to_grpframe` from src/grp.rs:743, with the PNG already loaded.  For the
RLE modes the width is range-checked against 255; `width` and `height` are
stored through `as u8` casts, modelled by `% 256`. -/
def png_to_grpframe (image : InputImage) (image_data_offset : Nat)
    (compression : CompressionType) : Except String GrpFrame :=
  if compression == CompressionType.Normal || compression == CompressionType.Optimised then
    if image.width > 255 then
      Except.error "InvalidInput: width above limit of 255"
    else
      Except.ok
        { x_offset := image.x_offset
          y_offset := image.y_offset
          width := image.width % 256
          height := image.height % 256
          image_data_offset := image_data_offset
          image_data := encode_grp_rle_data image.width image.height image.image_data compression }
  else
    let extended_width := image_should_be_extended image.width
    let wo :=
      if extended_width then
        adjust_width_and_offset_if_extended_when_encoding image.width image_data_offset
      else (image.width, image_data_offset)
    Except.ok
      { x_offset := image.x_offset
        y_offset := image.y_offset
        width := wo.1 % 256
        height := image.height % 256
        image_data_offset := wo.2
        image_data := encode_uncompressed_grp image.width image.height image.image_data
          extended_width }

/-- Dedup key, `make_frame_reuse_key` from src/grp.rs:885.  The source hashes to
a `u64` with `DefaultHasher`; the model keys on the hashed content itself, which
is deterministic exactly like the hash (adversarial collisions are out of
scope per the source's design notes). -/
def make_frame_reuse_key (compression_type : CompressionType) (image : InputImage) :
    List Nat × Nat × Nat × Nat × Nat :=
  if compression_type == CompressionType.Normal
      || compression_type == CompressionType.Optimised then
    (image.image_data, 0, 0, 0, 0)
  else
    (image.image_data, image.x_offset, image.y_offset, image.width, image.height)

/-- `get_header_size` from src/grp.rs:860. -/
def get_header_size (war1_style : Bool) : Nat := if war1_style then 4 else 6

/-- Loop state of `files_to_grp` (src/grp.rs:791). -/
structure FilesState where
  grp_frames : List GrpFrame
  seen_frames : List ((List Nat × Nat × Nat × Nat × Nat) × Nat)
  image_data_offset : Nat
  max_width : Nat
  max_height : Nat
deriving Repr

/-- A placeholder frame for the (never out-of-range) indexed read of a reused
frame in `files_to_grp`. -/
def dummyFrame : GrpFrame :=
  { x_offset := 0, y_offset := 0, width := 0, height := 0, image_data_offset := 0
    image_data := { row_offsets := [], raw_row_data := [], converted_pixels := []
                    grp_type := GrpType.Normal } }

/-- One iteration of the `for (index, png_file)` loop of `files_to_grp`
(src/grp.rs:805-855).  The War1 bounds test keeps the source's Rust operator
precedence: `&&` binds tighter than `||`, so the height clause is tested for
every compression type. -/
def filesToGrpStep (compression_type : CompressionType) (st : FilesState)
    (image : InputImage) : Except String FilesState :=
  let reuse_key := make_frame_reuse_key compression_type image
  match st.seen_frames.lookup reuse_key with
  | some existing_index =>
    let reused := st.grp_frames.getD existing_index dummyFrame
    Except.ok
      { st with
        grp_frames := st.grp_frames ++
          [{ x_offset := image.x_offset
             y_offset := image.y_offset
             width := reused.width
             height := reused.height
             image_data_offset := reused.image_data_offset
             image_data := reused.image_data }] }
  | none =>
    match png_to_grpframe image st.image_data_offset compression_type with
    | Except.error e => Except.error e
    | Except.ok grp_frame =>
      let image_data_offset := st.image_data_offset + grp_frame_len grp_frame
      if offset_is_extended image_data_offset then
        Except.error "InvalidInput: the image data offset is already too big"
      else if (compression_type == CompressionType.War1 &&
            decide (grp_frame.width + grp_frame.x_offset > 255)) ||
          decide (grp_frame.height + grp_frame.y_offset > 255) then
        Except.error "InvalidInput: frame bounds for War1"
      else
        Except.ok
          { grp_frames := st.grp_frames ++ [grp_frame]
            seen_frames := st.seen_frames ++ [(reuse_key, st.grp_frames.length)]
            image_data_offset := image_data_offset
            max_width := max st.max_width image.original_width
            max_height := max st.max_height image.original_height }

/-- `files_to_grp` from src/grp.rs:791, with the PNG loading already performed
(the input list holds the quantized, trimmed images in file order). -/
def files_to_grp (images : List InputImage) (compression_type : CompressionType) :
    Except String (List GrpFrame × Nat × Nat) :=
  let header_len := get_header_size (compression_type == CompressionType.War1)
  match images.foldlM (filesToGrpStep compression_type)
      { grp_frames := [], seen_frames := []
        image_data_offset := header_len + images.length * 8
        max_width := 0, max_height := 0 } with
  | Except.error e => Except.error e
  | Except.ok st => Except.ok (st.grp_frames, st.max_width, st.max_height)

/-! ## Writing a GRP file (src/grp.rs, `write_grp_file`) -/

/-- Little-endian bytes of a `u16` value. -/
def u16le (n : Nat) : List Nat := [n % 256, n / 256 % 256]

/-- Little-endian bytes of a `u32` value. -/
def u32le (n : Nat) : List Nat :=
  [n % 256, n / 256 % 256, n / 65536 % 256, n / 16777216 % 256]

/-- The 8 header bytes written for one frame (src/grp.rs:710-716). -/
def frameHeaderBytes (f : GrpFrame) : List Nat :=
  [f.x_offset, f.y_offset, f.width, f.height] ++ u32le f.image_data_offset

/-- The payload bytes written for one frame: its row-offset table followed by
its raw row data (src/grp.rs:727-735). -/
def framePayloadBytes (f : GrpFrame) : List Nat :=
  (f.image_data.row_offsets.map u16le).flatten ++ f.image_data.raw_row_data.flatten

/-- The image-data section of `write_grp_file` (src/grp.rs:720-737): frames
whose `image_data_offset` was already written are skipped. -/
def writePayload : List GrpFrame → List Nat → List Nat
  | [], _written => []
  | f :: fs, written =>
    if f.image_data_offset ∈ written then writePayload fs written
    else framePayloadBytes f ++ writePayload fs (f.image_data_offset :: written)

/-- `write_grp_file` from src/grp.rs:696, as the byte sequence written to disk. -/
def write_grp_file_bytes (header : GrpHeader) (frames : List GrpFrame)
    (compression_type : CompressionType) : List Nat :=
  (u16le header.frame_count ++
    (if compression_type == CompressionType.War1 then
      [header.max_width % 256, header.max_height % 256]
    else u16le header.max_width ++ u16le header.max_height)) ++
  (frames.map frameHeaderBytes).flatten ++
  writePayload frames []

/-! ## Variant detection (src/grp.rs, `detect_uncompressed`) -/

/-- The fields of one 8-byte frame header that `detect_uncompressed` reads:
`buf[2]` (width byte), `buf[3]` (height) and the `u32` offset. -/
structure FrameHeaderEntry where
  w : Nat
  height : Nat
  image_data_offset : Nat
deriving DecidableEq, Repr

/-- Effective width of a frame-header entry after the extended-bit adjustment. -/
def effWidth (e : FrameHeaderEntry) : Nat :=
  (adjust_width_and_offset_if_extended_when_decoding e.w e.image_data_offset).1

/-- Adjusted image-data offset of a frame-header entry (extended bit cleared). -/
def adjOffset (e : FrameHeaderEntry) : Nat :=
  (adjust_width_and_offset_if_extended_when_decoding e.w e.image_data_offset).2

/-- Loop state of `detect_uncompressed` (src/grp.rs:918-920). -/
structure DetectState where
  seen_offsets : List Nat
  first_offset : Nat
  total_frame_size : Nat
deriving DecidableEq, Repr

/-- One iteration of the `for _ in 0..header.frame_count` loop of
`detect_uncompressed` (src/grp.rs:922-940): frames with a not-yet-seen
(adjusted) offset contribute `width * height`, accumulated in a `u32`
(`total_frame_size += width as u32 * height as u32`, src/grp.rs:934) that
wraps modulo 2^32 in release builds; `first_offset` is set whenever it is
still 0.  The per-frame product itself cannot overflow (width ≤ 511,
height ≤ 255), only the running sum wraps. -/
def detectStep (st : DetectState) (e : FrameHeaderEntry) : DetectState :=
  let st1 :=
    if adjOffset e ∈ st.seen_offsets then st
    else
      { st with
        seen_offsets := adjOffset e :: st.seen_offsets
        total_frame_size := (st.total_frame_size + effWidth e * e.height) % 4294967296 }
  if st1.first_offset = 0 then { st1 with first_offset := adjOffset e } else st1

/-- `detect_uncompressed` from src/grp.rs:912, taking the parsed frame-header
entries and the file length: `true` means the GRP is tagged Uncompressed.
The comparison at src/grp.rs:942 is
`first_offset + total_frame_size == file_len as u32`: a wrapping `u32`
addition on the left and the `u64` file length truncated to `u32` on the
right, hence the two `% 2^32`. -/
def detect_uncompressed (entries : List FrameHeaderEntry) (file_len : Nat) : Bool :=
  let st := entries.foldl detectStep
    { seen_offsets := [], first_offset := 0, total_frame_size := 0 }
  (st.first_offset + st.total_frame_size) % 4294967296 == file_len % 4294967296

/-- Declarative first offset: the code's `first_offset` after the loop is the
first non-zero adjusted offset among the entries (0 if there is none). -/
def firstNonzeroOffset : List FrameHeaderEntry → Nat
  | [] => 0
  | e :: es => if adjOffset e ≠ 0 then adjOffset e else firstNonzeroOffset es

/-- Declarative dedup: keep only the first entry for each adjusted offset. -/
def distinctOffsetEntries : List FrameHeaderEntry → List Nat → List FrameHeaderEntry
  | [], _seen => []
  | e :: es, seen =>
    if adjOffset e ∈ seen then distinctOffsetEntries es seen
    else e :: distinctOffsetEntries es (adjOffset e :: seen)

/-- Declarative payload size: `Σ effective_width × height` over the frames with
distinct image-data offsets. -/
def sumDistinct (entries : List FrameHeaderEntry) : Nat :=
  ((distinctOffsetEntries entries []).map (fun e => effWidth e * e.height)).sum

/-! ## Claim-specific small models -/

/-- Non-tiled egress (src/png.rs:152-174): the indices of the frames for which
a PNG file is actually saved.  The loop body starts with
`if args.frame_number == Some(i as u16) { continue; }`, so exactly the frames
whose index differs from `frame_number` are saved. -/
def savedFrameIndices (frame_count : Nat) (frame_number : Option Nat) : List Nat :=
  (List.range frame_count).filter (fun i => !(frame_number == some i))

/-- The seek position for frame `i`'s 8-byte header in `read_grp_frames`
(src/grp.rs:202) and `try_reading_frame_headers` (src/grp.rs:143):
`pos + (i * 8) as u64` where `i : u16`, so the product wraps modulo 2^16
before being widened to `u64` (release-mode semantics; debug builds panic). -/
def frame_header_seek_pos (header_size i : Nat) : Nat :=
  header_size + i * 8 % 65536

/-! ## C2: the `frame_number` filter of non-tiled egress -/

/-- C2.  The claim says that with `frame_number = Some n` only frame `n` is
saved.  The code does the opposite: the loop skips exactly frame `n` and saves
every other frame.  With two frames and `frame_number = Some 0`, the saved
index list is `[1]`, not `[0]`. -/
theorem c2_frame_number_skip_inverted :
    Irongrp.savedFrameIndices 2 (some 0) = [1] ∧
      Irongrp.savedFrameIndices 2 (some 0) ≠ [0] := by
  decide

/-! ## C4: the War1 bounds check in `files_to_grp` -/

/-- An input image whose trimmed height plus vertical offset exceeds 255
(height 60, `y_offset` 200): every pixel is palette index 7. -/
def tallImage : InputImage :=
  { x_offset := 0, y_offset := 200, width := 1, height := 60
    original_width := 1, original_height := 260
    image_data := List.replicate 60 7 }

set_option maxRecDepth 8000 in
/-- C4.  The claim says the `x_offset + width ≤ 255 ∧ y_offset + height ≤ 255`
check fires only for compression type War1.  Because Rust's `&&` binds tighter
than `||`, the height clause of the source's test is evaluated for every
compression type, so a Normal-mode encode of a frame with
`height + y_offset = 260 > 255` aborts with the input-range error as well. -/
theorem c4_bounds_check_fires_for_normal :
    Irongrp.files_to_grp [Irongrp.tallImage] CompressionType.Normal =
      Except.error "InvalidInput: frame bounds for War1" := by
  rfl

/-! ## C9: frame-header index arithmetic -/

/-- C9.  The claim says frame `i`'s header is read from
`header_size + 8 * i` for every `i < frame_count ≤ 65535`.  The source computes
`(i * 8) as u64` with `i : u16`, so the product wraps modulo 2^16: for
`i = 8192` the seek position collapses to the position of frame 0's header. -/
theorem c9_seek_position_wraps :
    Irongrp.frame_header_seek_pos 6 8192 = 6 ∧
      Irongrp.frame_header_seek_pos 6 8192 ≠ 6 + 8192 * 8 := by
  decide

/-! ## C8 and C10: decoder behaviour at a truncated window -/

/-- C8.  If a Run control byte (bit 7 clear, bit 6 set) sits at the last
position of the window while the output row is not yet full, the decoder
consumes that byte, hits the safety check (no value byte follows), and
terminates: no pixel is written (the output row is returned unchanged) and the
consumed count is the cursor position, one past the control byte.  In
particular `decode_grp_rle_row [0x41] 1 = ([0], 1)` (see the witness). -/
theorem c8_truncated_run_stops_decoding (line_data : List Nat) (image_width : Nat)
    (fuel x off : Nat) (out : List Nat)
    (hoff : off + 1 = line_data.length) (hx : x < image_width)
    (h80 : line_data.getD off 0 &&& 0x80 = 0)
    (h40 : line_data.getD off 0 &&& 0x40 ≠ 0) :
    Irongrp.decodeLoop line_data image_width (fuel + 1) x off out = (out, off + 1) := by
  have hofflt : off < line_data.length := by omega
  have hlen : line_data.length ≤ off + 1 := by omega
  rw [List.getD_eq_getElem line_data 0 hofflt] at h80 h40
  simp [decodeLoop, h80, h40, hx, hofflt, hlen]

/-- Witness for C8: the concrete truncated run `[0x41]` at width 1 decodes to
`([0], 1)` — the single pixel stays 0 and exactly the control byte counts as
consumed. -/
theorem c8_truncated_run_witness : Irongrp.decode_grp_rle_row [0x41] 1 = ([0], 1) := by
  have h := Irongrp.c8_truncated_run_stops_decoding [0x41] 1 1 0 0 [0]
    (by decide) (by decide) (by decide) (by decide)
  simpa [decode_grp_rle_row] using h

/-- C10.  If a Literal control byte 0x00 occupies the final position of the
window while the output row is not yet full, the zero-length copy loop does
nothing and the defensive step-over advances the cursor by one more, past the
end of the window: the decoder returns a consumed count of
`window length + 1`.  In particular `decode_grp_rle_row [0x00] 1 = ([0], 2)`
(see the witness). -/
theorem c10_zero_literal_consumes_past_end (line_data : List Nat) (image_width : Nat)
    (fuel x off : Nat) (out : List Nat)
    (hoff : off + 1 = line_data.length) (hx : x < image_width)
    (hc : line_data.getD off 0 = 0) :
    Irongrp.decodeLoop line_data image_width (fuel + 1) x off out =
      (out, line_data.length + 1) := by
  have hofflt : off < line_data.length := by omega
  have hcopy : Irongrp.copyLit line_data image_width out x (off + 1) 0 = (out, x, off + 1) := rfl
  have hstop : ∀ f, Irongrp.decodeLoop line_data image_width f x (line_data.length + 1) out =
      (out, line_data.length + 1) := by
    intro f
    cases f with
    | zero => rfl
    | succ f =>
      have hng : ¬ (x < image_width ∧ line_data.length + 1 < line_data.length) := by omega
      simp [decodeLoop, hng]
  rw [List.getD_eq_getElem line_data 0 hofflt] at hc
  simp [decodeLoop, hc, hcopy, hx, hofflt, hstop,
    show off + 2 = line_data.length + 1 by omega]

/-- Witness for C10: decoding the one-byte window `[0x00]` at width 1 returns
consumed count 2, one past the window's length. -/
theorem c10_zero_literal_witness : Irongrp.decode_grp_rle_row [0x00] 1 = ([0], 2) := by
  have h := Irongrp.c10_zero_literal_consumes_past_end [0x00] 1 1 0 0 [0]
    (by decide) (by decide) (by decide)
  simpa [decode_grp_rle_row] using h

/-! ## C6: the Uncompressed detector -/

/-- The detection loop computes, from any start state, the start state's running
total plus the `effective_width × height` sum over the entries with
not-yet-seen adjusted offsets -- modulo 2^32, since the `u32` accumulator
wraps -- and the first non-zero adjusted offset. -/
theorem detectStep_foldl_spec (entries : List FrameHeaderEntry) :
    ∀ st : DetectState,
      (entries.foldl detectStep st).total_frame_size % 4294967296 =
        (st.total_frame_size +
          ((distinctOffsetEntries entries st.seen_offsets).map
            (fun e => effWidth e * e.height)).sum) % 4294967296 ∧
      (entries.foldl detectStep st).first_offset =
        (if st.first_offset = 0 then firstNonzeroOffset entries else st.first_offset) := by
  induction entries with
  | nil =>
    intro st
    refine ⟨by simp [distinctOffsetEntries], ?_⟩
    by_cases h : st.first_offset = 0 <;> simp [h, firstNonzeroOffset]
  | cons e es ih =>
    intro st
    rw [List.foldl_cons]
    obtain ⟨iht, ihf⟩ := ih (detectStep st e)
    constructor
    · rw [iht]
      by_cases hmem : adjOffset e ∈ st.seen_offsets
      · have hstep : (detectStep st e).total_frame_size = st.total_frame_size ∧
            (detectStep st e).seen_offsets = st.seen_offsets := by
          simp only [detectStep, if_pos hmem]
          split <;> simp
        rw [hstep.1, hstep.2, distinctOffsetEntries, if_pos hmem]
      · have hstep : (detectStep st e).total_frame_size =
              (st.total_frame_size + effWidth e * e.height) % 4294967296 ∧
            (detectStep st e).seen_offsets = adjOffset e :: st.seen_offsets := by
          simp only [detectStep, if_neg hmem]
          split <;> simp
        rw [hstep.1, hstep.2, distinctOffsetEntries, if_neg hmem, Nat.mod_add_mod]
        simp [Nat.add_assoc]
    · rw [ihf]
      have hstep : (detectStep st e).first_offset =
          (if st.first_offset = 0 then adjOffset e else st.first_offset) := by
        simp only [detectStep]
        split <;> split <;> simp_all
      rw [hstep, firstNonzeroOffset]
      by_cases hfo : st.first_offset = 0
      · by_cases hadj : adjOffset e = 0 <;> simp [hfo, hadj]
      · simp [hfo]

/-- **C6** (amended).  For a non-War1 GRP, the detector tags the file
Uncompressed exactly when the first (non-zero) adjusted frame offset plus the
sum of `effective_width × height` over the frames with distinct adjusted
image-data offsets equals the file length **modulo 2^32**: the sum is
accumulated in a wrapping `u32` (src/grp.rs:934) and compared against the file
length truncated by `as u32` (src/grp.rs:942).  Consequently a file that
differs from a detected-Uncompressed one only by extra trailing bytes is
tagged Normal whenever the number of extra bytes is below 2^32 -- not
unconditionally, as the original claim states. -/
theorem c6_detect_uncompressed (entries : List FrameHeaderEntry) (file_len : Nat) :
    (Irongrp.detect_uncompressed entries file_len = true ↔
      (firstNonzeroOffset entries + sumDistinct entries) % 4294967296 =
        file_len % 4294967296) ∧
    (∀ extra : Nat, 0 < extra → extra < 4294967296 →
      Irongrp.detect_uncompressed entries file_len = true →
      Irongrp.detect_uncompressed entries (file_len + extra) = false) := by
  have key : ∀ n, Irongrp.detect_uncompressed entries n = true ↔
      (firstNonzeroOffset entries + sumDistinct entries) % 4294967296 =
        n % 4294967296 := by
    intro n
    obtain ⟨ht, hf⟩ := detectStep_foldl_spec entries
      { seen_offsets := [], first_offset := 0, total_frame_size := 0 }
    have hf' : (entries.foldl detectStep
        { seen_offsets := [], first_offset := 0, total_frame_size := 0 }).first_offset =
        firstNonzeroOffset entries := by
      rw [hf]
      simp
    have ht' : (entries.foldl detectStep
        { seen_offsets := [], first_offset := 0, total_frame_size := 0 }).total_frame_size
          % 4294967296 = sumDistinct entries % 4294967296 := by
      rw [ht]
      simp [sumDistinct]
    simp only [detect_uncompressed, beq_iff_eq]
    rw [Nat.add_mod, hf', ht', ← Nat.add_mod]
  refine ⟨key file_len, fun extra hpos hlt hdet => ?_⟩
  have h1 := (key file_len).mp hdet
  cases hcase : Irongrp.detect_uncompressed entries (file_len + extra) with
  | false => rfl
  | true =>
    have h2 := (key (file_len + extra)).mp hcase
    omega

/-- Witness for C6: a single 1×1 frame at offset 14 in a 15-byte file is
detected Uncompressed; with one trailing byte added it is not. -/
theorem c6_detect_witness :
    Irongrp.detect_uncompressed [⟨1, 1, 14⟩] 15 = true ∧
      Irongrp.detect_uncompressed [⟨1, 1, 14⟩] 16 = false := by
  refine ⟨(Irongrp.c6_detect_uncompressed [⟨1, 1, 14⟩] 15).1.mpr (by decide), ?_⟩
  exact (Irongrp.c6_detect_uncompressed [⟨1, 1, 14⟩] 15).2 1 (by decide) (by decide)
    ((Irongrp.c6_detect_uncompressed [⟨1, 1, 14⟩] 15).1.mpr (by decide))

/-- **C6** counterexample: the original exact-arithmetic claim is false of the
program.  A single 1×1 frame at offset 14 gives first_offset + sum = 15
exactly, yet a file of length 15 + 2^32 = 4294967311 is still tagged
Uncompressed, because src/grp.rs:942 truncates the file length with `as u32`;
so the claimed "exactly when the sum equals the file length" fails, and adding
exactly 2^32 trailing bytes to a detected-Uncompressed file does not make it
Normal. -/
theorem c6_counterexample_u32_truncation :
    Irongrp.detect_uncompressed [⟨1, 1, 14⟩] 4294967311 = true ∧
      firstNonzeroOffset [⟨1, 1, 14⟩] + sumDistinct [⟨1, 1, 14⟩] ≠ 4294967311 := by
  decide

/-! ## C3: the Optimised inter-row overlap -/

/-- The pixel slice `&pixels[row * width .. (row + 1) * width]` that
`encode_grp_rle_data` encodes for one row. -/
def rowSlice (width : Nat) (pixels : List Nat) (r : Nat) : List Nat :=
  (pixels.drop (r * width)).take width

/-- The encoded bytes of row `r`. -/
def encodedRowAt (width : Nat) (pixels : List Nat) (ct : CompressionType) (r : Nat) :
    List Nat :=
  encode_grp_rle_row (rowSlice width pixels r) ct

/-- Row `r`'s start position inside the frame payload: the `2 × height` bytes
of the row-offset table plus the lengths of all previously emitted rows. -/
def rowStartInPayload (width height : Nat) (pixels : List Nat) (ct : CompressionType)
    (r : Nat) : Nat :=
  2 * height + ((List.range r).map (fun j => (encodedRowAt width pixels ct j).length)).sum

/-- The overlap `k` between the encodings of rows `r - 1` and `r`. -/
def rowOverlap (width : Nat) (pixels : List Nat) (ct : CompressionType) (r : Nat) : Nat :=
  find_longest_overlap (encodedRowAt width pixels ct (r - 1)) (encodedRowAt width pixels ct r)

/-- The stored offset the loop records for row `r` (in `u16` arithmetic). -/
def storedOffsetAt (width height : Nat) (pixels : List Nat) (ct : CompressionType)
    (r : Nat) : Nat :=
  u16sub
    (u16 (u16 (((List.range r).map (fun j => (encodedRowAt width pixels ct j).length)).sum) +
      u16 (height * 2)))
    (if 0 < r ∧ ct = CompressionType.Optimised then u16 (rowOverlap width pixels ct r) else 0)

/-- `findOverlapFrom` never returns more than its starting bound. -/
theorem findOverlapFrom_le (row1 row2 : List Nat) : ∀ k, findOverlapFrom row1 row2 k ≤ k := by
  intro k
  induction k with
  | zero => simp [findOverlapFrom]
  | succ k ih =>
    rw [findOverlapFrom]
    split
    · exact Nat.le_refl _
    · omega

/-- The overlap is at most the length of the previous encoded row. -/
theorem find_longest_overlap_le_left (row1 row2 : List Nat) :
    find_longest_overlap row1 row2 ≤ row1.length := by
  have h := findOverlapFrom_le row1 row2 (min row1.length row2.length)
  have : min row1.length row2.length ≤ row1.length := Nat.min_le_left _ _
  calc find_longest_overlap row1 row2 ≤ min row1.length row2.length := h
  _ ≤ row1.length := this

/-- Full characterization of the `encode_grp_rle_data` loop: after folding the
first `m` rows, the emitted rows are exactly the per-row encodings (in order
and unaltered), the payload is their concatenation, every stored row offset is
the row's `u16` start position minus the `u16` overlap with the previous
encoded row (minus 0 for row 0 or in non-Optimised modes), and `prev_row`
holds the last encoding. -/
theorem encodeRleData_foldl_spec (width height : Nat) (pixels : List Nat)
    (ct : CompressionType) :
    ∀ m, (List.range m).foldl (encodeRleDataStep width height pixels ct)
        { raw_row_data := [], rle_data := [], row_offsets := [], prev_row := none } =
      { raw_row_data := (List.range m).map (encodedRowAt width pixels ct)
        rle_data := ((List.range m).map (encodedRowAt width pixels ct)).flatten
        row_offsets := (List.range m).map (storedOffsetAt width height pixels ct)
        prev_row := if m = 0 then none else some (encodedRowAt width pixels ct (m - 1)) } := by
  intro m
  induction m with
  | zero => rfl
  | succ m ih =>
    rw [List.range_succ, List.foldl_append, ih]
    have hlen : (((List.range m).map (encodedRowAt width pixels ct)).flatten).length =
        ((List.range m).map (fun j => (encodedRowAt width pixels ct j).length)).sum := by
      rw [List.length_flatten, List.map_map]
      rfl
    simp only [List.foldl_cons, List.foldl_nil, encodeRleDataStep]
    cases m with
    | zero =>
      simp only [hlen]
      simp [storedOffsetAt, encodedRowAt, List.range_succ, rowSlice]
    | succ m0 =>
      simp only [hlen, if_neg (Nat.succ_ne_zero m0), Option.isSome_some, Bool.true_and,
        Option.getD_some, RleDataState.mk.injEq]
      by_cases hopt : ct = CompressionType.Optimised
      · subst hopt
        refine ⟨by simp [encodedRowAt, rowSlice], by simp [encodedRowAt, rowSlice], ?_,
          by simp [encodedRowAt, rowSlice]⟩
        simp [storedOffsetAt, rowOverlap, encodedRowAt, rowSlice]
      · have hbeq : (ct == CompressionType.Optimised) = false := by
          cases ct <;> simp_all
        refine ⟨by simp [encodedRowAt, rowSlice], by simp [encodedRowAt, rowSlice], ?_,
          by simp [encodedRowAt, rowSlice]⟩
        simp [hbeq, storedOffsetAt, rowOverlap, encodedRowAt, rowSlice, hopt]

/-- C3 (amended).  In Optimised mode, for each row after the first the stored
offset is the row's start position minus the overlap `k` for every `k ≥ 1`
(not only for `k > 1`; the `overlap > 1` test in the source guards only a log
message), and the emitted row bytes are never altered.  The arithmetic
hypothesis keeps the row start below 2^16 so the source's `u16` arithmetic is
exact. -/
theorem c3_offset_reduced_by_overlap (width height : Nat) (pixels : List Nat) (r : Nat)
    (hr : r < height) (h1 : 1 ≤ r)
    (hnw : rowStartInPayload width height pixels CompressionType.Optimised r < 65536) :
    (Irongrp.encode_grp_rle_data width height pixels CompressionType.Optimised).row_offsets.getD
        r 0 =
      rowStartInPayload width height pixels CompressionType.Optimised r -
        rowOverlap width pixels CompressionType.Optimised r ∧
    (Irongrp.encode_grp_rle_data width height pixels CompressionType.Optimised).raw_row_data =
      (List.range height).map (encodedRowAt width pixels CompressionType.Optimised) := by
  have hspec := encodeRleData_foldl_spec width height pixels CompressionType.Optimised height
  constructor
  · have hget : (Irongrp.encode_grp_rle_data width height pixels
        CompressionType.Optimised).row_offsets =
        (List.range height).map (storedOffsetAt width height pixels CompressionType.Optimised) := by
      rw [encode_grp_rle_data, hspec]
    rw [hget]
    have hr' : r < ((List.range height).map
        (storedOffsetAt width height pixels CompressionType.Optimised)).length := by
      simpa using hr
    rw [List.getD_eq_getElem _ 0 hr']
    rw [List.getElem_map]
    simp only [List.getElem_range]
    -- unfold the u16 arithmetic; the no-wrap hypothesis makes it exact
    have hsum : ((List.range r).map
        (fun j => (encodedRowAt width pixels CompressionType.Optimised j).length)).sum +
        2 * height < 65536 := by
      have := hnw
      unfold rowStartInPayload at this
      omega
    have hovl : rowOverlap width pixels CompressionType.Optimised r ≤
        ((List.range r).map
          (fun j => (encodedRowAt width pixels CompressionType.Optimised j).length)).sum := by
      have hle := find_longest_overlap_le_left
        (encodedRowAt width pixels CompressionType.Optimised (r - 1))
        (encodedRowAt width pixels CompressionType.Optimised r)
      have hmem : (encodedRowAt width pixels CompressionType.Optimised (r - 1)).length ∈
          (List.range r).map
            (fun j => (encodedRowAt width pixels CompressionType.Optimised j).length) := by
        refine List.mem_map.mpr ⟨r - 1, ?_, rfl⟩
        exact List.mem_range.mpr (by omega)
      have hsumge := List.single_le_sum (by intro x _; exact Nat.zero_le x) _ hmem
      unfold rowOverlap at *
      omega
    rw [storedOffsetAt, if_pos ⟨h1, rfl⟩]
    unfold rowStartInPayload
    unfold u16sub u16
    omega
  · rw [encode_grp_rle_data, hspec]

/-- Counterexample for C3 as stated: for the 2×2 Optimised frame with pixel
rows `[1,2]` and `[2,3]`, the overlap between the two encoded rows is exactly
`k = 1`, yet the second row's stored offset is its start position 7 minus 1,
not 7 — the claim's `k ≤ 1` case does not leave the offset unreduced. -/
theorem c3_counterexample_overlap_one :
    rowOverlap 2 [1, 2, 2, 3] CompressionType.Optimised 1 = 1 ∧
    rowStartInPayload 2 2 [1, 2, 2, 3] CompressionType.Optimised 1 = 7 ∧
    (Irongrp.encode_grp_rle_data 2 2 [1, 2, 2, 3]
      CompressionType.Optimised).row_offsets.getD 1 0 = 6 := by
  decide

/-- Witness for C3: the amended statement applied to the concrete 2×2 frame. -/
theorem c3_offset_witness :
    (Irongrp.encode_grp_rle_data 2 2 [0, 1, 1, 0]
        CompressionType.Optimised).row_offsets.getD 1 0 =
      rowStartInPayload 2 2 [0, 1, 1, 0] CompressionType.Optimised 1 -
        rowOverlap 2 [0, 1, 1, 0] CompressionType.Optimised 1 :=
  (Irongrp.c3_offset_reduced_by_overlap 2 2 [0, 1, 1, 0] 1 (by decide) (by decide)
    (by decide)).1

/-! ## C7: per-frame dedup and single payload emission -/

/-- Placeholder image for out-of-range `getD` reads in statements. -/
def dummyImage : InputImage :=
  { x_offset := 0, y_offset := 0, width := 0, height := 0
    original_width := 0, original_height := 0, image_data := [] }

/-- Declarative first-occurrence filter on `image_data_offset`, mirroring the
`HashSet::insert` skip of `write_grp_file`. -/
def dedupFramesByOffset : List GrpFrame → List Nat → List GrpFrame
  | [], _written => []
  | f :: fs, written =>
    if f.image_data_offset ∈ written then dedupFramesByOffset fs written
    else f :: dedupFramesByOffset fs (f.image_data_offset :: written)

/-- The payload section is exactly the concatenated payloads of the frames kept
by the first-occurrence filter. -/
theorem writePayload_eq_dedup :
    ∀ (fs : List GrpFrame) (written : List Nat),
      writePayload fs written = ((dedupFramesByOffset fs written).map framePayloadBytes).flatten := by
  intro fs
  induction fs with
  | nil => intro written; rfl
  | cons f fs ih =>
    intro written
    rw [writePayload, dedupFramesByOffset]
    by_cases hmem : f.image_data_offset ∈ written
    · simp [hmem, ih]
    · simp [hmem, ih]

/-- The frames kept by the first-occurrence filter have pairwise distinct
offsets, none of which was already written. -/
theorem dedupFramesByOffset_nodup :
    ∀ (fs : List GrpFrame) (written : List Nat),
      ((dedupFramesByOffset fs written).map (fun f => f.image_data_offset)).Nodup ∧
      ∀ o ∈ (dedupFramesByOffset fs written).map (fun f => f.image_data_offset), o ∉ written := by
  intro fs
  induction fs with
  | nil => intro written; simp [dedupFramesByOffset]
  | cons f fs ih =>
    intro written
    rw [dedupFramesByOffset]
    by_cases hmem : f.image_data_offset ∈ written
    · simpa [hmem] using ih written
    · obtain ⟨ihn, ihw⟩ := ih (f.image_data_offset :: written)
      simp only [if_neg hmem, List.map_cons, List.nodup_cons]
      refine ⟨⟨fun hcontra => ?_, ihn⟩, ?_⟩
      · exact (ihw _ hcontra) (List.mem_cons_self _ _)
      · intro o ho
        rcases List.mem_cons.mp ho with h | h
        · subst h; exact hmem
        · intro how
          exact (ihw o h) (List.mem_cons_of_mem _ how)

/-- Each frame-table entry is exactly 8 bytes. -/
theorem frameHeaderBytes_length (f : GrpFrame) : (frameHeaderBytes f).length = 8 := by
  simp [frameHeaderBytes, u32le]

/-- The frame table of the written file is `8 × (number of frames)` bytes. -/
theorem frameTable_length (fs : List GrpFrame) :
    ((fs.map frameHeaderBytes).flatten).length = 8 * fs.length := by
  induction fs with
  | nil => rfl
  | cons f fs ih => simp [ih, frameHeaderBytes_length]; ring

/-- `List.lookup` through an append, found in the first part. -/
theorem lookup_append_some {α β : Type} [BEq α] (l1 l2 : List (α × β)) (k : α) (v : β)
    (h : l1.lookup k = some v) : (l1 ++ l2).lookup k = some v := by
  induction l1 with
  | nil => simp [List.lookup] at h
  | cons p l1 ih =>
    rw [List.cons_append, List.lookup]
    rw [List.lookup] at h
    cases hbeq : k == p.1 with
    | true => simpa [hbeq] using h
    | false =>
      rw [hbeq] at h
      simpa using ih h

/-- A successful `List.lookup` returns the value of a member pair. -/
theorem lookup_mem_of_some {α β : Type} [BEq α] [LawfulBEq α] (l : List (α × β)) (k : α)
    (v : β) (h : l.lookup k = some v) : (k, v) ∈ l := by
  induction l with
  | nil => simp [List.lookup] at h
  | cons p l ih =>
    rw [List.lookup] at h
    cases hbeq : k == p.1 with
    | true =>
      rw [hbeq] at h
      have hk : k = p.1 := eq_of_beq hbeq
      have hv : p.2 = v := by simpa using h
      have hp : p = (k, v) := by
        cases p
        simp_all
      rw [hp] at *
      exact List.mem_cons_self _ _
    | false =>
      rw [hbeq] at h
      exact List.mem_cons_of_mem _ (ih h)

/-- `List.lookup` through an append, absent from the first part. -/
theorem lookup_append_none {α β : Type} [BEq α] (l1 l2 : List (α × β)) (k : α)
    (h : l1.lookup k = none) : (l1 ++ l2).lookup k = l2.lookup k := by
  induction l1 with
  | nil => rfl
  | cons p l1 ih =>
    rw [List.cons_append, List.lookup]
    rw [List.lookup] at h
    cases hbeq : k == p.1 with
    | true => rw [hbeq] at h; simp at h
    | false => rw [hbeq] at h; simpa using ih h

/-- The loop invariant of `files_to_grp` in Normal mode: frames are produced
one per processed image, every processed image's dedup key is present in the
seen-map, seen-map entries point at the frame that first carried their key,
and frames of key-equal images carry the same `image_data_offset`. -/
def FilesInv (processed : List InputImage) (st : FilesState) : Prop :=
  st.grp_frames.length = processed.length ∧
  (∀ k, k < processed.length →
    (st.seen_frames.lookup
      (make_frame_reuse_key CompressionType.Normal (processed.getD k dummyImage))).isSome) ∧
  (∀ p ∈ st.seen_frames, p.2 < processed.length ∧
    p.1 = make_frame_reuse_key CompressionType.Normal (processed.getD p.2 dummyImage)) ∧
  (∀ k1 k2, k1 < processed.length → k2 < processed.length →
    make_frame_reuse_key CompressionType.Normal (processed.getD k1 dummyImage) =
      make_frame_reuse_key CompressionType.Normal (processed.getD k2 dummyImage) →
    (st.grp_frames.getD k1 dummyFrame).image_data_offset =
      (st.grp_frames.getD k2 dummyFrame).image_data_offset)

/-- One `files_to_grp` iteration preserves the invariant. -/
theorem filesToGrpStep_inv (processed : List InputImage) (st st' : FilesState)
    (image : InputImage) (hinv : FilesInv processed st)
    (hstep : filesToGrpStep CompressionType.Normal st image = Except.ok st') :
    FilesInv (processed ++ [image]) st' := by
  obtain ⟨hlen, hseen, hentries, hoffs⟩ := hinv
  have hgetd_old : ∀ k, k < processed.length →
      (processed ++ [image]).getD k dummyImage = processed.getD k dummyImage := by
    intro k hk
    exact List.getD_append _ _ _ _ hk
  have hgetd_new : (processed ++ [image]).getD processed.length dummyImage = image := by
    rw [List.getD_append_right _ _ _ _ (Nat.le_refl _)]
    simp
  rw [filesToGrpStep] at hstep
  cases hlook : st.seen_frames.lookup (make_frame_reuse_key CompressionType.Normal image) with
  | some existing_index =>
    rw [hlook] at hstep
    simp only [Except.ok.injEq] at hstep
    subst hstep
    have hidx := hentries _ (lookup_mem_of_some _ _ _ hlook)
    refine ⟨by simpa using hlen, ?_, ?_, ?_⟩
    · intro k hk
      simp only [List.length_append, List.length_singleton] at hk
      by_cases hklt : k < processed.length
      · rw [hgetd_old k hklt]; exact hseen k hklt
      · have hkeq : k = processed.length := by omega
        subst hkeq
        rw [hgetd_new, hlook]
        rfl
    · intro p hp
      obtain ⟨h1, h2⟩ := hentries p hp
      refine ⟨by simpa using Nat.lt_succ_of_lt h1, ?_⟩
      rw [hgetd_old _ h1]
      exact h2
    · intro k1 k2 hk1 hk2 hkey
      simp only [List.length_append, List.length_singleton] at hk1 hk2
      have hframe_new : ∀ g : GrpFrame,
          (st.grp_frames ++ [g]).getD processed.length dummyFrame = g := by
        intro g
        rw [List.getD_append_right _ _ _ _ (by omega)]
        simp [hlen]
      by_cases h1 : k1 < processed.length <;> by_cases h2 : k2 < processed.length
      · rw [List.getD_append _ _ _ _ (by omega), List.getD_append _ _ _ _ (by omega)]
        rw [hgetd_old _ h1, hgetd_old _ h2] at hkey
        exact hoffs k1 k2 h1 h2 hkey
      · have hk2' : k2 = processed.length := by omega
        subst hk2'
        rw [List.getD_append _ _ _ _ (by omega), hframe_new]
        rw [hgetd_old _ h1, hgetd_new] at hkey
        exact hoffs k1 existing_index h1 hidx.1 (hkey.trans hidx.2)
      · have hk1' : k1 = processed.length := by omega
        subst hk1'
        rw [hframe_new, List.getD_append _ _ _ _ (by omega)]
        rw [hgetd_old _ h2, hgetd_new] at hkey
        dsimp only
        exact hoffs existing_index k2 hidx.1 h2 (hidx.2.symm.trans hkey)
      · have hk1' : k1 = processed.length := by omega
        have hk2' : k2 = processed.length := by omega
        subst hk1'; subst hk2'
        rfl
  | none =>
    rw [hlook] at hstep
    cases hpng : png_to_grpframe image st.image_data_offset CompressionType.Normal with
    | error e => rw [hpng] at hstep; simp at hstep
    | ok grp_frame =>
      rw [hpng] at hstep
      simp only at hstep
      by_cases hext : offset_is_extended (st.image_data_offset + grp_frame_len grp_frame) = true
      · rw [if_pos hext] at hstep; simp at hstep
      · rw [if_neg hext] at hstep
        by_cases hbound : ((CompressionType.Normal == CompressionType.War1 &&
              decide (grp_frame.width + grp_frame.x_offset > 255)) ||
            decide (grp_frame.height + grp_frame.y_offset > 255)) = true
        · rw [if_pos hbound] at hstep; simp at hstep
        · rw [if_neg hbound] at hstep
          simp only [Except.ok.injEq] at hstep
          subst hstep
          have hnokey : ∀ k, k < processed.length →
              make_frame_reuse_key CompressionType.Normal (processed.getD k dummyImage) ≠
                make_frame_reuse_key CompressionType.Normal image := by
            intro k hk hcontra
            have := hseen k hk
            rw [hcontra, hlook] at this
            simp at this
          refine ⟨by simpa using hlen, ?_, ?_, ?_⟩
          · intro k hk
            simp only [List.length_append, List.length_singleton] at hk
            by_cases hklt : k < processed.length
            · rw [hgetd_old k hklt]
              cases hl : st.seen_frames.lookup
                  (make_frame_reuse_key CompressionType.Normal (processed.getD k dummyImage)) with
              | none =>
                have := hseen k hklt
                rw [hl] at this
                simp at this
              | some v =>
                rw [lookup_append_some _ _ _ _ hl]
                rfl
            · have hkeq : k = processed.length := by omega
              subst hkeq
              rw [hgetd_new]
              rw [lookup_append_none _ _ _ hlook]
              simp [List.lookup]
          · intro p hp
            rcases List.mem_append.mp hp with h | h
            · obtain ⟨h1, h2⟩ := hentries p h
              refine ⟨by simpa using Nat.lt_succ_of_lt h1, ?_⟩
              rw [hgetd_old _ h1]
              exact h2
            · have hpeq : p = (make_frame_reuse_key CompressionType.Normal image,
                  st.grp_frames.length) := by simpa using h
              subst hpeq
              refine ⟨by simp [hlen], ?_⟩
              dsimp only
              rw [hlen, hgetd_new]
          · intro k1 k2 hk1 hk2 hkey
            simp only [List.length_append, List.length_singleton] at hk1 hk2
            by_cases h1 : k1 < processed.length <;> by_cases h2 : k2 < processed.length
            · rw [List.getD_append _ _ _ _ (by omega), List.getD_append _ _ _ _ (by omega)]
              rw [hgetd_old _ h1, hgetd_old _ h2] at hkey
              exact hoffs k1 k2 h1 h2 hkey
            · have hk2' : k2 = processed.length := by omega
              subst hk2'
              rw [hgetd_old _ h1, hgetd_new] at hkey
              exact absurd hkey (hnokey k1 h1)
            · have hk1' : k1 = processed.length := by omega
              subst hk1'
              rw [hgetd_old _ h2, hgetd_new] at hkey
              exact absurd hkey.symm (hnokey k2 h2)
            · have hk1' : k1 = processed.length := by omega
              have hk2' : k2 = processed.length := by omega
              subst hk1'; subst hk2'
              rfl

/-- The invariant holds after folding any remaining images. -/
theorem filesToGrp_foldlM_inv :
    ∀ (rest processed : List InputImage) (st res : FilesState),
      FilesInv processed st →
      rest.foldlM (filesToGrpStep CompressionType.Normal) st = Except.ok res →
      FilesInv (processed ++ rest) res := by
  intro rest
  induction rest with
  | nil =>
    intro processed st res hinv hfold
    simp only [List.foldlM_nil] at hfold
    cases hfold
    simpa using hinv
  | cons image rest ih =>
    intro processed st res hinv hfold
    rw [List.foldlM_cons] at hfold
    cases hstep : filesToGrpStep CompressionType.Normal st image with
    | error e =>
      rw [hstep] at hfold
      exact Except.noConfusion hfold
    | ok st' =>
      rw [hstep] at hfold
      have hbind : rest.foldlM (filesToGrpStep CompressionType.Normal) st' =
          Except.ok res := hfold
      have hinv' := filesToGrpStep_inv processed st st' image hinv hstep
      have := ih (processed ++ [image]) st' res hinv' hbind
      simpa [List.append_assoc] using this

/-- C7.  Encoding a directory of PNGs in Normal mode: the frame table of the
written GRP holds one 8-byte header per input frame, any two input frames with
identical quantized pixel grids end up with the same `image_data_offset`, and
the payload section of the written file contains the payload of each distinct
`image_data_offset` exactly once (it is the concatenation over the
first-occurrence frames, whose offsets are pairwise distinct). -/
theorem c7_dedup_single_payload (images : List InputImage) (frames : List GrpFrame)
    (mw mh : Nat)
    (hok : Irongrp.files_to_grp images CompressionType.Normal = Except.ok (frames, mw, mh)) :
    frames.length = images.length ∧
    ((frames.map frameHeaderBytes).flatten).length = 8 * images.length ∧
    (∀ i j, i < images.length → j < images.length →
      (images.getD i dummyImage).image_data = (images.getD j dummyImage).image_data →
      (frames.getD i dummyFrame).image_data_offset =
        (frames.getD j dummyFrame).image_data_offset) ∧
    writePayload frames [] = ((dedupFramesByOffset frames []).map framePayloadBytes).flatten ∧
    ((dedupFramesByOffset frames []).map (fun f => f.image_data_offset)).Nodup := by
  rw [files_to_grp] at hok
  cases hfold : images.foldlM (filesToGrpStep CompressionType.Normal)
      { grp_frames := [], seen_frames := []
        image_data_offset := get_header_size (CompressionType.Normal == CompressionType.War1) +
          images.length * 8
        max_width := 0, max_height := 0 } with
  | error e => rw [hfold] at hok; simp at hok
  | ok st =>
    rw [hfold] at hok
    simp only [Except.ok.injEq, Prod.mk.injEq] at hok
    obtain ⟨hframes, _hmw, _hmh⟩ := hok
    have hinv0 : FilesInv []
        { grp_frames := [], seen_frames := []
          image_data_offset := get_header_size (CompressionType.Normal == CompressionType.War1) +
            images.length * 8
          max_width := 0, max_height := 0 } := by
      refine ⟨rfl, ?_, ?_, ?_⟩ <;> simp
    have hinv := filesToGrp_foldlM_inv images [] _ st hinv0 hfold
    rw [List.nil_append] at hinv
    obtain ⟨hlen, _hseen, _hentries, hoffs⟩ := hinv
    subst hframes
    refine ⟨hlen, ?_, ?_, writePayload_eq_dedup _ _, (dedupFramesByOffset_nodup _ _).1⟩
    · rw [frameTable_length, hlen]
    · intro i j hi hj hdata
      refine hoffs i j (by omega) (by omega) ?_
      simp only [make_frame_reuse_key, List.getD, List.get?_eq_getElem?] at hdata ⊢
      simp [hdata]

/-- A 1×1 input image whose pixel is palette index 7. -/
def imgA7 : InputImage :=
  { x_offset := 0, y_offset := 0, width := 1, height := 1
    original_width := 1, original_height := 1, image_data := [7] }

/-- A 1×1 input image whose pixel is palette index 9. -/
def imgB9 : InputImage :=
  { x_offset := 0, y_offset := 0, width := 1, height := 1
    original_width := 1, original_height := 1, image_data := [9] }

/-- The frame produced for `imgA7` at payload offset 30. -/
def frameA7 : GrpFrame :=
  { x_offset := 0, y_offset := 0, width := 1, height := 1, image_data_offset := 30
    image_data := encode_grp_rle_data 1 1 [7] CompressionType.Normal }

/-- The frame produced for `imgB9` at payload offset 34. -/
def frameB9 : GrpFrame :=
  { x_offset := 0, y_offset := 0, width := 1, height := 1, image_data_offset := 34
    image_data := encode_grp_rle_data 1 1 [9] CompressionType.Normal }

/-- Witness for C7, the spec's A, B, A scenario: the encode produces three
frames, frames 0 and 2 share the same `image_data_offset`, and the payload
section is the concatenation over the first-occurrence frames. -/
theorem c7_dedup_witness :
    ([frameA7, frameB9, frameA7] : List GrpFrame).length = 3 ∧
    (([frameA7, frameB9, frameA7] : List GrpFrame).getD 0 dummyFrame).image_data_offset =
      (([frameA7, frameB9, frameA7] : List GrpFrame).getD 2 dummyFrame).image_data_offset ∧
    writePayload [frameA7, frameB9, frameA7] [] =
      ((dedupFramesByOffset [frameA7, frameB9, frameA7] []).map framePayloadBytes).flatten := by
  have h := Irongrp.c7_dedup_single_payload [imgA7, imgB9, imgA7]
    [frameA7, frameB9, frameA7] 1 1 (by rfl)
  exact ⟨h.1.trans (by simp), h.2.2.1 0 2 (by decide) (by decide) (by decide), h.2.2.2.1⟩

/-! ## C1: round-trip of the RLE row codec

The proof strategy: the decoder is driven one encoder instruction at a time.
`padded row i` is the decoder's output buffer after the pixels before `i` have
been reproduced; each encoder instruction moves it to `padded row i'`. -/

/-- Transparent control bytes: `0x80 | s` for `s ≤ 127` is `128 + s`, has bit 7
set and carries `s` in its low bits. -/
theorem transparent_byte_facts :
    ∀ s, s < 128 → 128 ||| s = 128 + s ∧ (128 + s) &&& 128 = 128 ∧ (128 + s) &&& 127 = s := by
  decide

/-- Run control bytes: `0x40 | r` for `r ≤ 63` is `64 + r`, has bit 7 clear,
bit 6 set, and carries `r` in its low bits. -/
theorem run_byte_facts :
    ∀ r, r < 64 → 64 ||| r = 64 + r ∧ (64 + r) &&& 128 = 0 ∧ (64 + r) &&& 64 = 64 ∧
      (64 + r) &&& 63 = r := by
  decide

/-- Literal control bytes: a length `l ≤ 63` has bits 7 and 6 clear. -/
theorem literal_byte_facts : ∀ l, l < 64 → l &&& 128 = 0 ∧ l &&& 64 = 0 := by
  decide

/-- `getD` through `drop`. -/
theorem getD_drop (l : List Nat) (m n : Nat) : (l.drop m).getD n 0 = l.getD (m + n) 0 := by
  simp [List.getD, List.getElem?_drop]

/-- Splitting one byte off the remaining encoded stream. -/
theorem drop_cons_facts (data : List Nat) (off a : Nat) (l : List Nat)
    (h : data.drop off = a :: l) :
    off < data.length ∧ data.getD off 0 = a ∧ data.drop (off + 1) = l := by
  have hlt : off < data.length := by
    by_contra hge
    rw [List.drop_eq_nil_of_le (by omega)] at h
    simp at h
  refine ⟨hlt, ?_, ?_⟩
  · have hg := getD_drop data off 0
    rw [h] at hg
    simpa using hg.symm
  · have hd : (data.drop off).drop 1 = data.drop (off + 1) := by
      rw [List.drop_drop]
    rw [← hd, h]
    rfl

/-- Splitting a block of bytes off the remaining encoded stream. -/
theorem drop_append_facts (data : List Nat) (off : Nat) (l1 l2 : List Nat)
    (hoff : off ≤ data.length) (h : data.drop off = l1 ++ l2) :
    off + l1.length ≤ data.length ∧
    (∀ j, j < l1.length → data.getD (off + j) 0 = l1.getD j 0) ∧
    data.drop (off + l1.length) = l2 := by
  have hlen : data.length - off = l1.length + l2.length := by
    have := List.length_drop off data
    rw [h] at this
    simpa using this.symm
  refine ⟨by omega, ?_, ?_⟩
  · intro j hj
    have hg := getD_drop data off j
    rw [h] at hg
    rw [← hg, List.getD_append _ _ _ _ hj]
  · have hd : (data.drop off).drop l1.length = data.drop (off + l1.length) := by
      rw [List.drop_drop, Nat.add_comm]
    rw [← hd, h, List.drop_left]

/-- The decoder's output buffer once every pixel before `i` has been written:
the first `i` pixels of `row` followed by zeros. -/
def padded (row : List Nat) (i : Nat) : List Nat :=
  row.take i ++ List.replicate (row.length - i) 0

theorem padded_zero (row : List Nat) : padded row 0 = List.replicate row.length 0 := by
  simp [padded]

theorem padded_full (row : List Nat) : padded row row.length = row := by
  simp [padded]

/-- Writing pixel `i` into the buffer advances the realized prefix. -/
theorem padded_set (row : List Nat) (i : Nat) (h : i < row.length) :
    (padded row i).set i (row.getD i 0) = padded row (i + 1) := by
  unfold padded
  rw [show row.length - i = (row.length - (i + 1)) + 1 by omega, List.replicate_succ]
  rw [List.set_append]
  have hlt : ¬ i < (row.take i).length := by simp
  rw [if_neg hlt]
  have hi : i - (row.take i).length = 0 := by simp; omega
  rw [hi]
  have hset : (0 :: List.replicate (row.length - (i + 1)) 0).set 0 (row.getD i 0) =
      row.getD i 0 :: List.replicate (row.length - (i + 1)) 0 := rfl
  rw [hset]
  have htake : row.take (i + 1) = row.take i ++ [row.getD i 0] := by
    rw [List.take_succ, List.getElem?_eq_getElem h, List.getD_eq_getElem row 0 h]
    rfl
  rw [htake, List.append_assoc]
  rfl

/-- Skipping over pixels that are 0 does not change the buffer. -/
theorem padded_skip_zeros (row : List Nat) (i z : Nat) (hz : i + z ≤ row.length)
    (hall : ∀ j, i ≤ j → j < i + z → row.getD j 0 = 0) :
    padded row i = padded row (i + z) := by
  apply List.ext_getElem?
  intro n
  have hti : (row.take i).length = i := by simp; omega
  have htiz : (row.take (i + z)).length = i + z := by simp; omega
  unfold padded
  rw [List.getElem?_append, List.getElem?_append, hti, htiz]
  by_cases h1 : n < i
  · rw [if_pos h1, if_pos (by omega), List.getElem?_take, List.getElem?_take,
      if_pos h1, if_pos (by omega)]
  · rw [if_neg h1]
    by_cases h2 : n < i + z
    · rw [if_pos h2, List.getElem?_take, if_pos h2, List.getElem?_replicate,
        if_pos (by omega), List.getElem?_eq_getElem (by omega : n < row.length)]
      have h0 : row.getD n 0 = 0 := hall n (by omega) h2
      rw [List.getD_eq_getElem row 0 (by omega)] at h0
      rw [h0]
    · rw [if_neg h2, List.getElem?_replicate, List.getElem?_replicate]
      by_cases hn : n < row.length
      · rw [if_pos (by omega), if_pos (by omega)]
      · rw [if_neg (by omega), if_neg (by omega)]

/-- A run of `r` identical pixels fills the buffer from `padded row x` to
`padded row (x + r)` and leaves the cursor at `x + r`. -/
theorem fillRun_padded (row : List Nat) (v : Nat) :
    ∀ r x, x + r ≤ row.length → (∀ j, x ≤ j → j < x + r → row.getD j 0 = v) →
      fillRun row.length (padded row x) x v r = (padded row (x + r), x + r) := by
  intro r
  induction r with
  | zero => intro x _ _; simp [fillRun]
  | succ r ih =>
    intro x hxr hall
    simp only [fillRun]
    rw [if_neg (by omega)]
    have hv : v = row.getD x 0 := (hall x (Nat.le_refl x) (by omega)).symm
    have hsetv : (padded row x).set x v = padded row (x + 1) := by
      rw [hv]
      exact padded_set row x (by omega)
    rw [hsetv]
    have hrec := ih (x + 1) (by omega) (fun j hj1 hj2 => hall j (by omega) (by omega))
    rw [hrec, show x + 1 + r = x + (r + 1) from by omega]

/-- A literal of `n` bytes that equal the next `n` pixels copies them into the
buffer, advancing both cursors by `n`. -/
theorem copyLit_padded (row data : List Nat) :
    ∀ n x off, x + n ≤ row.length → off + n ≤ data.length →
      (∀ j, j < n → data.getD (off + j) 0 = row.getD (x + j) 0) →
      copyLit data row.length (padded row x) x off n = (padded row (x + n), x + n, off + n) := by
  intro n
  induction n with
  | zero => intro x off _ _ _; simp [copyLit]
  | succ n ih =>
    intro x off hxn hoffn hbytes
    simp only [copyLit]
    rw [if_neg (by omega)]
    have hb0 : data.getD off 0 = row.getD x 0 := by
      have := hbytes 0 (by omega)
      simpa using this
    rw [hb0, padded_set row x (by omega)]
    have hrec := ih (x + 1) (off + 1) (by omega) (by omega) (fun j hj => by
      have := hbytes (j + 1) (by omega)
      rw [show off + (j + 1) = off + 1 + j from by omega,
        show x + (j + 1) = x + 1 + j from by omega] at this
      exact this)
    rw [hrec, show x + 1 + n = x + (n + 1) from by omega,
      show off + 1 + n = off + (n + 1) from by omega]

/-- One decoder step on a Transparent instruction `0x80 | s`. -/
theorem decode_step_transparent (data : List Nat) (W fuel x off s : Nat) (out : List Nat)
    (hx : x < W) (hoff : off < data.length) (hs : s < 128)
    (hc : data.getD off 0 = 128 + s) :
    Irongrp.decodeLoop data W (fuel + 1) x off out =
      Irongrp.decodeLoop data W fuel (x + s) (off + 1) out := by
  obtain ⟨-, h128, h127⟩ := transparent_byte_facts s hs
  rw [List.getD_eq_getElem data 0 hoff] at hc
  simp only [decodeLoop]
  rw [if_pos ⟨hx, hoff⟩]
  rw [List.getD_eq_getElem data 0 hoff, hc, h128, h127]
  simp

/-- One decoder step on a Run instruction `0x40 | r` followed by its value. -/
theorem decode_step_run (data : List Nat) (W fuel x off r v : Nat) (out : List Nat)
    (hx : x < W) (hoff : off + 1 < data.length) (hr : r < 64)
    (hc : data.getD off 0 = 64 + r) (hv : data.getD (off + 1) 0 = v) :
    Irongrp.decodeLoop data W (fuel + 1) x off out =
      Irongrp.decodeLoop data W fuel (fillRun W out x v r).2 (off + 2)
        (fillRun W out x v r).1 := by
  obtain ⟨-, h128, h64, h63⟩ := run_byte_facts r hr
  rw [List.getD_eq_getElem data 0 (by omega)] at hc
  rw [List.getD_eq_getElem data 0 hoff] at hv
  simp only [decodeLoop]
  rw [if_pos ⟨hx, by omega⟩]
  rw [List.getD_eq_getElem data 0 (by omega : off < data.length), hc, h128, h64, h63]
  rw [if_neg (by omega : ¬ off + 1 ≥ data.length)]
  rw [List.getD_eq_getElem data 0 hoff, hv]
  simp

/-- One decoder step on a Literal instruction with non-zero length `l ≤ 63`. -/
theorem decode_step_literal (data : List Nat) (W fuel x off l : Nat) (out : List Nat)
    (hx : x < W) (hoff : off < data.length) (hl1 : 1 ≤ l) (hl : l < 64)
    (hc : data.getD off 0 = l) :
    Irongrp.decodeLoop data W (fuel + 1) x off out =
      Irongrp.decodeLoop data W fuel (copyLit data W out x (off + 1) l).2.1
        (copyLit data W out x (off + 1) l).2.2 (copyLit data W out x (off + 1) l).1 := by
  obtain ⟨h128, h64⟩ := literal_byte_facts l hl
  rw [List.getD_eq_getElem data 0 hoff] at hc
  simp only [decodeLoop]
  rw [if_pos ⟨hx, hoff⟩]
  rw [List.getD_eq_getElem data 0 hoff, hc, h128, h64]
  rw [if_neg (by omega : ¬ l = 0)]
  simp

/-- The decoder returns the buffer unchanged once the output row is full. -/
theorem decodeLoop_full (data : List Nat) (W fuel off : Nat) (out : List Nat) :
    Irongrp.decodeLoop data W fuel W off out = (out, off) := by
  cases fuel with
  | zero => rfl
  | succ fuel =>
    simp only [decodeLoop]
    rw [if_neg (by omega)]

/-- Specification of the run-measuring scan: starting from a partial run of
`k` matching pixels it returns a maximal run length `r`, meaning `r` is between
`k` and `cap`, stays inside the row, all pixels at offsets `1..r-1` match the
colour, and the scan stopped for one of the three loop-exit reasons. -/
theorem runScan_spec (row : List Nat) (i c cap : Nat) :
    ∀ fuel k, cap ≤ k + fuel → 1 ≤ k → k ≤ cap → i + k ≤ row.length →
      (∀ j, 1 ≤ j → j < k → row.getD (i + j) 0 = c) →
      k ≤ runScan row i c cap fuel k ∧ runScan row i c cap fuel k ≤ cap ∧
        i + runScan row i c cap fuel k ≤ row.length ∧
        (∀ j, 1 ≤ j → j < runScan row i c cap fuel k → row.getD (i + j) 0 = c) ∧
        (runScan row i c cap fuel k = cap ∨ i + runScan row i c cap fuel k = row.length ∨
          row.getD (i + runScan row i c cap fuel k) 0 ≠ c) := by
  intro fuel
  induction fuel with
  | zero =>
    intro k hfuel hk1 hkcap hkle hprev
    simp only [runScan]
    exact ⟨Nat.le_refl _, hkcap, hkle, hprev, Or.inl (by omega)⟩
  | succ fuel ih =>
    intro k hfuel hk1 hkcap hkle hprev
    simp only [runScan]
    by_cases hcond : i + k < row.length ∧ row.getD (i + k) 0 = c ∧ k < cap
    · rw [if_pos hcond]
      refine ih (k + 1) (by omega) (by omega) (by omega) (by omega) ?_ |>.imp
        (fun h => by omega) (fun h => h)
      intro j hj1 hjk
      by_cases hjk' : j < k
      · exact hprev j hj1 hjk'
      · have hjeq : j = k := by omega
        subst hjeq
        exact hcond.2.1
    · rw [if_neg hcond]
      refine ⟨Nat.le_refl _, hkcap, hkle, hprev, ?_⟩
      by_cases h1 : i + k < row.length
      · by_cases h2 : row.getD (i + k) 0 = c
        · have h3 : ¬ k < cap := fun h3 => hcond ⟨h1, h2, h3⟩
          exact Or.inl (by omega)
        · exact Or.inr (Or.inr h2)
      · exact Or.inr (Or.inl (by omega))

/-- Specification of the literal-accumulating scan, for both break orders: from
a state inside a literal that started at `s` (whose initial same-colour run
`r0` was at most the threshold and maximal), the resulting literal length is
between 1 and 63 and stays inside the row. -/
theorem litScan_spec (row : List Nat) (nm : Bool) (thr s r0 : Nat)
    (hthr2 : 2 ≤ thr) (hr0le : r0 ≤ thr)
    (hr0max : s + r0 = row.length ∨ row.getD (s + r0) 0 ≠ row.getD s 0) :
    ∀ fuel x rl lc lcl,
      row.length ≤ x + fuel → s < x → x ≤ row.length →
      rl = x - s → rl ≤ 63 → lcl ≤ thr → 1 ≤ lcl →
      (∀ j, x - lcl ≤ j → j < x → row.getD j 0 = lc) →
      s + lcl ≤ x →
      1 ≤ litScan row nm thr fuel x rl lc lcl ∧
        litScan row nm thr fuel x rl lc lcl ≤ 63 ∧
        s + litScan row nm thr fuel x rl lc lcl ≤ row.length := by
  intro fuel
  induction fuel with
  | zero =>
    intro x rl lc lcl hfuel hsx hxle hrl hrl63 _ _ _ _
    simp only [litScan]
    omega
  | succ fuel ih =>
    intro x rl lc lcl hfuel hsx hxle hrl hrl63 hlcl_le hlcl1 hrun hanchor
    simp only [litScan]
    by_cases hx : x < row.length
    swap
    · rw [if_neg hx]
      omega
    rw [if_pos hx]
    by_cases hp : row.getD x 0 = 0
    · rw [if_pos hp]
      omega
    rw [if_neg hp]
    -- the same-colour sub-run break can only fire with the sub-run strictly
    -- inside the literal, because the initial run `r0 ≤ thr` was maximal
    have hforce : row.getD x 0 = lc → lcl = thr → s + thr < x := by
      intro hpc hlclthr
      by_contra hle
      have hxeq : x = s + thr := by omega
      have hlc_s : row.getD s 0 = lc := hrun s (by omega) (by omega)
      have hall_thr : ∀ j, j ≤ thr → row.getD (s + j) 0 = lc := by
        intro j hj
        by_cases hjth : j < thr
        · exact hrun (s + j) (by omega) (by omega)
        · have hjeq : j = thr := by omega
          subst hjeq
          rw [← hxeq]
          exact hpc
      rcases hr0max with hend | hne
      · omega
      · exact hne ((hall_thr r0 hr0le).trans hlc_s.symm)
    by_cases hpc : row.getD x 0 = lc
    · -- continuation of the trailing sub-run
      have hfresh : ¬ (row.getD x 0 ≠ lc ∨ lcl = 0) := by
        intro h
        rcases h with h | h
        · exact h hpc
        · omega
      simp only [if_neg hfresh]
      have hrec : rl + 1 ≤ 63 → lcl + 1 ≤ thr →
          1 ≤ litScan row nm thr fuel (x + 1) (rl + 1) lc (lcl + 1) ∧
          litScan row nm thr fuel (x + 1) (rl + 1) lc (lcl + 1) ≤ 63 ∧
          s + litScan row nm thr fuel (x + 1) (rl + 1) lc (lcl + 1) ≤ row.length := by
        intro hcap hok
        refine ih (x + 1) (rl + 1) lc (lcl + 1) (by omega) (by omega) (by omega) (by omega)
          hcap hok (by omega) ?_ (by omega)
        intro j hj1 hj2
        by_cases hjx : j < x
        · exact hrun j (by omega) hjx
        · have hjeq : j = x := by omega
          subst hjeq
          exact hpc
      cases nm with
      | true =>
        simp only [eq_self_iff_true, if_true]
        by_cases hcap : rl ≥ 63
        · simp only [if_pos hcap]
          omega
        · simp only [if_neg hcap]
          by_cases hbreak : lcl + 1 > thr
          · rw [if_pos hbreak]
            have hlclthr : lcl = thr := by omega
            have hxgt := hforce hpc hlclthr
            omega
          · rw [if_neg hbreak]
            exact hrec (by omega) (by omega)
      | false =>
        simp only [Bool.false_eq_true, if_false]
        by_cases hbreak : lcl + 1 > thr
        · rw [if_pos hbreak]
          have hlclthr : lcl = thr := by omega
          have hxgt := hforce hpc hlclthr
          omega
        · rw [if_neg hbreak]
          by_cases hcap : rl ≥ 63
          · simp only [if_pos hcap]
            omega
          · simp only [if_neg hcap]
            exact hrec (by omega) (by omega)
    · -- a fresh sub-run starts at `x`
      have hfresh : (row.getD x 0 ≠ lc ∨ lcl = 0) := Or.inl hpc
      simp only [if_pos hfresh]
      have hrec : rl + 1 ≤ 63 → 1 ≤ litScan row nm thr fuel (x + 1) (rl + 1) (row.getD x 0) 1 ∧
          litScan row nm thr fuel (x + 1) (rl + 1) (row.getD x 0) 1 ≤ 63 ∧
          s + litScan row nm thr fuel (x + 1) (rl + 1) (row.getD x 0) 1 ≤ row.length := by
        intro hok
        refine ih (x + 1) (rl + 1) (row.getD x 0) 1 (by omega) (by omega) (by omega)
          (by omega) hok (by omega) (by omega) ?_ (by omega)
        intro j hj1 hj2
        have hjeq : j = x := by omega
        subst hjeq
        rfl
      cases nm with
      | true =>
        simp only [eq_self_iff_true, if_true]
        by_cases hcap : rl ≥ 63
        · simp only [if_pos hcap]
          omega
        · simp only [if_neg hcap]
          rw [if_neg (by omega : ¬ 1 > thr)]
          exact hrec (by omega)
      | false =>
        simp only [Bool.false_eq_true, if_false]
        rw [if_neg (by omega : ¬ 1 > thr)]
        by_cases hcap : rl ≥ 63
        · simp only [if_pos hcap]
          omega
        · simp only [if_neg hcap]
          exact hrec (by omega)

/-- `getD` through `take`. -/
theorem getD_take (l : List Nat) (m j : Nat) (h : j < m) : (l.take m).getD j 0 = l.getD j 0 := by
  simp [List.getD, List.getElem?_take, h]

/-- Main round-trip invariant: if what remains of the encoded stream at `off`
is exactly the encoder's output from position `i` (with matching safety-break
budget, and enough budget that the 4096-iteration cap can never fire), then the
decoder run from the matching state rebuilds the whole row. -/
theorem decode_encode_aux (row : List Nat) (nm : Bool) (thr : Nat)
    (hthr2 : 2 ≤ thr) (hthr62 : thr ≤ 62) (data : List Nat) :
    ∀ n i sb efuel dfuel off,
      row.length - i ≤ n → i ≤ row.length → sb + (row.length - i) ≤ 4096 →
      sb + efuel = 4097 →
      data.drop off = encodeLoop row nm thr efuel i sb →
      data.length ≤ off + dfuel →
      (Irongrp.decodeLoop data row.length dfuel i off (padded row i)).1 = row := by
  intro n
  induction n with
  | zero =>
    intro i sb efuel dfuel off hn hi _ _ _ _
    have hieq : i = row.length := by omega
    subst hieq
    rw [decodeLoop_full, padded_full]
  | succ n ih =>
    intro i sb efuel dfuel off hn hi hsb hef hdrop hdf
    by_cases hiW : i < row.length
    swap
    · have hieq : i = row.length := by omega
      subst hieq
      rw [decodeLoop_full, padded_full]
    obtain ⟨ef, hefeq⟩ : ∃ ef, efuel = ef + 1 := ⟨efuel - 1, by omega⟩
    subst hefeq
    simp only [encodeLoop] at hdrop
    rw [if_pos hiW, if_neg (by omega : ¬ sb + 1 > 4096)] at hdrop
    by_cases hzero : row.getD i 0 = 0
    · -- Transparent instruction
      rw [if_pos hzero] at hdrop
      obtain ⟨hz1, hz127, hzlen, hzall, -⟩ := runScan_spec row i 0 127 127 1
        (by omega) (by omega) (by omega) (by omega) (by intro j h1 h2; omega)
      have hzall0 : ∀ j, i ≤ j → j < i + runScan row i 0 127 127 1 → row.getD j 0 = 0 := by
        intro j hj1 hj2
        by_cases hj0 : j = i
        · subst hj0; exact hzero
        · have hjj := hzall (j - i) (by omega) (by omega)
          rw [show i + (j - i) = j from by omega] at hjj
          exact hjj
      rw [(transparent_byte_facts (runScan row i 0 127 127 1) (by omega)).1] at hdrop
      obtain ⟨hofflt, hcbyte, hdrop1⟩ := drop_cons_facts data off _ _ hdrop
      obtain ⟨df, hdfeq⟩ : ∃ df, dfuel = df + 1 := ⟨dfuel - 1, by omega⟩
      subst hdfeq
      rw [decode_step_transparent data row.length df i off (runScan row i 0 127 127 1)
        (padded row i) hiW hofflt (by omega) hcbyte]
      rw [padded_skip_zeros row i (runScan row i 0 127 127 1) hzlen hzall0]
      exact ih (i + runScan row i 0 127 127 1) (sb + 1) ef df (off + 1)
        (by omega) (by omega) (by omega) (by omega) hdrop1 (by omega)
    · rw [if_neg hzero] at hdrop
      obtain ⟨hr1, hr63, hrlen, hrall, hrmax⟩ := runScan_spec row i (row.getD i 0) 63 63 1
        (by omega) (by omega) (by omega) (by omega) (by intro j h1 h2; omega)
      have hrallc : ∀ j, i ≤ j → j < i + runScan row i (row.getD i 0) 63 63 1 →
          row.getD j 0 = row.getD i 0 := by
        intro j hj1 hj2
        by_cases hj0 : j = i
        · subst hj0; rfl
        · have hjj := hrall (j - i) (by omega) (by omega)
          rw [show i + (j - i) = j from by omega] at hjj
          exact hjj
      by_cases hrun : runScan row i (row.getD i 0) 63 63 1 > thr
      · -- Run instruction
        rw [if_pos hrun] at hdrop
        rw [(run_byte_facts (runScan row i (row.getD i 0) 63 63 1) (by omega)).1] at hdrop
        obtain ⟨hofflt, hcbyte, hdrop1⟩ := drop_cons_facts data off _ _ hdrop
        obtain ⟨hofflt1, hvbyte, hdrop2⟩ := drop_cons_facts data (off + 1) _ _ hdrop1
        obtain ⟨df, hdfeq⟩ : ∃ df, dfuel = df + 1 := ⟨dfuel - 1, by omega⟩
        subst hdfeq
        rw [decode_step_run data row.length df i off (runScan row i (row.getD i 0) 63 63 1)
          (row.getD i 0) (padded row i) hiW hofflt1 (by omega) hcbyte hvbyte]
        rw [fillRun_padded row (row.getD i 0) (runScan row i (row.getD i 0) 63 63 1) i
          hrlen hrallc]
        exact ih (i + runScan row i (row.getD i 0) 63 63 1) (sb + 1) ef df (off + 2)
          (by omega) (by omega) (by omega) (by omega) hdrop2 (by omega)
      · -- Literal instruction
        rw [if_neg hrun] at hdrop
        obtain ⟨lf, hlf⟩ : ∃ lf, row.length - i = lf + 1 := ⟨row.length - i - 1, by omega⟩
        have hLstep : litScan row nm thr (row.length - i) i 0 0 0 =
            litScan row nm thr lf (i + 1) 1 (row.getD i 0) 1 := by
          rw [hlf]
          simp only [litScan]
          rw [if_pos hiW, if_neg hzero]
          have h63 : ¬ ((0 : Nat) ≥ 63) := by omega
          have hth : ¬ ((1 : Nat) > thr) := by omega
          simp only [or_true, if_true, if_neg h63, if_neg hth, Nat.zero_add]
          cases nm with
          | true => simp only [eq_self_iff_true, if_true]
          | false => simp only [Bool.false_eq_true, if_false]
        have hr0max : i + runScan row i (row.getD i 0) 63 63 1 = row.length ∨
            row.getD (i + runScan row i (row.getD i 0) 63 63 1) 0 ≠ row.getD i 0 := by
          rcases hrmax with h63 | h | h
          · omega
          · exact Or.inl h
          · exact Or.inr h
        obtain ⟨hL1, hL63, hLlen⟩ := litScan_spec row nm thr i
          (runScan row i (row.getD i 0) 63 63 1) hthr2 (by omega) hr0max lf (i + 1) 1
          (row.getD i 0) 1 (by omega) (by omega) (by omega) (by omega) (by omega)
          (by omega) (by omega)
          (by
            intro j hj1 hj2
            have hjeq : j = i := by omega
            subst hjeq
            rfl)
          (by omega)
        rw [← hLstep] at hL1 hL63 hLlen
        obtain ⟨hofflt, hcbyte, hdrop1⟩ := drop_cons_facts data off _ _ hdrop
        have htakelen : ((row.drop i).take (litScan row nm thr (row.length - i) i 0 0 0)).length =
            litScan row nm thr (row.length - i) i 0 0 0 := by
          simp only [List.length_take, List.length_drop]
          omega
        obtain ⟨hblk1, hbytes, hdrop2⟩ := drop_append_facts data (off + 1) _ _
          (by omega) hdrop1
        rw [htakelen] at hblk1 hdrop2
        have hbytesrow : ∀ j, j < litScan row nm thr (row.length - i) i 0 0 0 →
            data.getD (off + 1 + j) 0 = row.getD (i + j) 0 := by
          intro j hj
          rw [hbytes j (by rw [htakelen]; exact hj)]
          rw [getD_take _ _ _ hj, getD_drop]
        obtain ⟨df, hdfeq⟩ : ∃ df, dfuel = df + 1 := ⟨dfuel - 1, by omega⟩
        subst hdfeq
        rw [decode_step_literal data row.length df i off
          (litScan row nm thr (row.length - i) i 0 0 0) (padded row i) hiW hofflt hL1
          (by omega) hcbyte]
        rw [copyLit_padded row data (litScan row nm thr (row.length - i) i 0 0 0) i (off + 1)
          (by omega) (by omega) hbytesrow]
        exact ih (i + litScan row nm thr (row.length - i) i 0 0 0) (sb + 1) ef df
          (off + 1 + litScan row nm thr (row.length - i) i 0 0 0)
          (by omega) (by omega) (by omega) (by omega) hdrop2 (by omega)

/-- **C1** (amended): whenever the row is at most 4096 pixels wide -- so the
encoder's `safety_break` cap (src/grp.rs:494-500) can never fire -- decoding
the encoding of the row at the row's width reproduces the row exactly, in both
encoder modes.  No bound on the pixel values is needed. -/
theorem c1_roundtrip_bounded (row : List Nat) (ct : CompressionType)
    (hlen : row.length ≤ 4096) :
    (Irongrp.decode_grp_rle_row (Irongrp.encode_grp_rle_row row ct) row.length).1 = row := by
  have h := decode_encode_aux row (ct == CompressionType.Normal)
    (if ct == CompressionType.Normal then 3 else 2)
    (by split <;> omega) (by split <;> omega)
    (Irongrp.encode_grp_rle_row row ct)
    row.length 0 0 4097 ((Irongrp.encode_grp_rle_row row ct).length + 1) 0
    (by omega) (by omega) (by omega) (by omega)
    (by simp only [List.drop_zero]; rfl)
    (by omega)
  rw [padded_zero] at h
  exact h

/-- The amended round trip at the concrete row `[0, 9, 9, 9, 8, 7]`. -/
theorem c1_roundtrip_witness :
    ([0, 9, 9, 9, 8, 7] : List Nat).length ≤ 4096 ∧
    (Irongrp.decode_grp_rle_row
      (Irongrp.encode_grp_rle_row [0, 9, 9, 9, 8, 7] CompressionType.Normal)
      ([0, 9, 9, 9, 8, 7] : List Nat).length).1 = [0, 9, 9, 9, 8, 7] :=
  ⟨by decide, c1_roundtrip_bounded [0, 9, 9, 9, 8, 7] CompressionType.Normal (by decide)⟩

/-! ## C1: the safety-break cap truncates rows wider than 4096 pixels

The alternating row 0,1,0,1,… costs the encoder one loop iteration per pixel
(a 1-pixel transparent skip, then a 1-pixel literal), so 4098 pixels need 4098
iterations, and the `safety_break` cap of 4096 truncates the last two pixels:
the encoding decodes to a row whose pixel 4097 is 0, not 1. -/

theorem flatten_replicate_length (l : List Nat) (n : Nat) :
    ((List.replicate n l).flatten).length = n * l.length := by
  induction n with
  | zero => simp
  | succ n ih =>
    rw [List.replicate_succ, List.flatten_cons, List.length_append, ih]
    ring

/-- The alternating row 0,1,0,1,… of length 4098. -/
def altRow : List Nat := (List.range 4098).map (fun j => j % 2)

theorem altRow_length : altRow.length = 4098 := by
  simp [altRow]

theorem altRow_getD (j : Nat) (h : j < 4098) : altRow.getD j 0 = j % 2 := by
  have hl : j < altRow.length := by rw [altRow_length]; omega
  rw [List.getD_eq_getElem altRow 0 hl]
  simp [altRow]

/-- What the truncated encoder emits on `altRow`: 2048 copies of the pair
"skip 1 transparent pixel, literal of 1 pixel of colour 1". -/
def altE : List Nat := (List.replicate 2048 ([129, 1, 1] : List Nat)).flatten

theorem altE_length : altE.length = 6144 := by
  show ((List.replicate 2048 ([129, 1, 1] : List Nat)).flatten).length = 6144
  rw [flatten_replicate_length]
  decide

/-- On `altRow` at an even position, the transparent run scan stops at 1. -/
theorem altRow_runScan0 (i : Nat) (hi2 : i % 2 = 0) (hi : i + 1 < 4098) :
    runScan altRow i 0 127 127 1 = 1 := by
  have h1 : altRow.getD (i + 1) 0 = 1 := by rw [altRow_getD (i + 1) hi]; omega
  have hcond : ¬ (i + 1 < altRow.length ∧ altRow.getD (i + 1) 0 = 0 ∧ 1 < 127) := by
    intro h
    omega
  show runScan altRow i 0 127 (126 + 1) 1 = 1
  rw [runScan, if_neg hcond]

/-- On `altRow` at an odd position, the colour run scan stops at 1. -/
theorem altRow_runScan1 (i : Nat) (hi2 : i % 2 = 1) :
    runScan altRow i 1 63 63 1 = 1 := by
  have hE := altRow_length
  have hcond : ¬ (i + 1 < altRow.length ∧ altRow.getD (i + 1) 0 = 1 ∧ 1 < 63) := by
    intro h
    have h0 : altRow.getD (i + 1) 0 = (i + 1) % 2 := altRow_getD (i + 1) (by omega)
    omega
  show runScan altRow i 1 63 (62 + 1) 1 = 1
  rw [runScan, if_neg hcond]

/-- The literal scan starting inside `altRow` at an odd position, with the next
pixel transparent (or the row ending), accumulates exactly 1 pixel. -/
theorem altRow_litScan_tail (lf x : Nat) (hx2 : x % 2 = 0) :
    litScan altRow true 3 lf x 1 1 1 = 1 := by
  cases lf with
  | zero => rfl
  | succ lf =>
    rw [litScan]
    by_cases hx : x < altRow.length
    · rw [if_pos hx]
      have h0 : altRow.getD x 0 = 0 := by
        have hE := altRow_length
        rw [altRow_getD x (by omega)]
        omega
      rw [if_pos h0]
    · rw [if_neg hx]

theorem altRow_litScan (i lf : Nat) (hi2 : i % 2 = 1) (hi : i < 4098) :
    litScan altRow true 3 (lf + 1) i 0 0 0 = 1 := by
  have hx : i < altRow.length := by rw [altRow_length]; exact hi
  have h1 : altRow.getD i 0 = 1 := by rw [altRow_getD i hi]; omega
  simp only [litScan]
  rw [if_pos hx, if_neg (by omega : ¬ altRow.getD i 0 = 0)]
  have h63 : ¬ ((0 : Nat) ≥ 63) := by omega
  have hth : ¬ ((1 : Nat) > 3) := by omega
  simp only [or_true, if_true, if_neg h63, if_neg hth, Nat.zero_add, eq_self_iff_true]
  rw [h1]
  exact altRow_litScan_tail lf (i + 1) (by omega)

/-- One encoder iteration on `altRow` at an even position: a transparent skip
of 1 pixel, costing one safety-break increment. -/
theorem altRow_enc_step0 (fuel i sb : Nat) (hi2 : i % 2 = 0) (hi : i + 1 < 4098)
    (hsb : sb + 1 ≤ 4096) :
    encodeLoop altRow true 3 (fuel + 1) i sb =
      129 :: encodeLoop altRow true 3 fuel (i + 1) (sb + 1) := by
  have hx : i < altRow.length := by rw [altRow_length]; omega
  have h0 : altRow.getD i 0 = 0 := by rw [altRow_getD i (by omega)]; omega
  have hrs := altRow_runScan0 i hi2 hi
  simp only [encodeLoop]
  rw [if_pos hx, if_neg (by omega : ¬ sb + 1 > 4096), if_pos h0, hrs,
    show (128 ||| 1 : Nat) = 129 from by decide]

/-- One encoder iteration on `altRow` at an odd position: a literal of 1 pixel
of colour 1, costing one safety-break increment. -/
theorem altRow_enc_step1 (fuel i sb : Nat) (hi2 : i % 2 = 1) (hi : i < 4098)
    (hsb : sb + 1 ≤ 4096) :
    encodeLoop altRow true 3 (fuel + 1) i sb =
      1 :: 1 :: encodeLoop altRow true 3 fuel (i + 1) (sb + 1) := by
  have hx : i < altRow.length := by rw [altRow_length]; omega
  have h1 : altRow.getD i 0 = 1 := by rw [altRow_getD i hi]; omega
  have hrs := altRow_runScan1 i hi2
  have hlit : litScan altRow true 3 (altRow.length - i) i 0 0 0 = 1 := by
    rw [altRow_length, show 4098 - i = 4097 - i + 1 from by omega]
    exact altRow_litScan i (4097 - i) hi2 hi
  have hdt : (altRow.drop i).take 1 = [1] := by
    rw [List.drop_eq_getElem_cons hx, List.take_succ_cons, List.take_zero]
    have h1' : altRow[i] = 1 := by
      rw [← List.getD_eq_getElem altRow 0 hx]
      exact h1
    rw [h1']
  simp only [encodeLoop]
  rw [if_pos hx, if_neg (by omega : ¬ sb + 1 > 4096),
    if_neg (by omega : ¬ altRow.getD i 0 = 0), h1, hrs,
    if_neg (by omega : ¬ (1 : Nat) > 3), hlit, hdt]
  rfl

/-- One full pixel pair of the encoder on `altRow`: three emitted bytes for
two pixels and two safety-break increments. -/
theorem altRow_enc_pair (fuel i sb : Nat) (hi2 : i % 2 = 0) (hi : i + 2 ≤ 4096)
    (hsb : sb + 2 ≤ 4096) :
    encodeLoop altRow true 3 (fuel + 2) i sb =
      129 :: 1 :: 1 :: encodeLoop altRow true 3 fuel (i + 2) (sb + 2) := by
  have e1 := altRow_enc_step0 (fuel + 1) i sb hi2 (by omega) (by omega)
  have e2 := altRow_enc_step1 fuel (i + 1) (sb + 1) (by omega) (by omega) (by omega)
  rw [show fuel + 2 = fuel + 1 + 1 from by omega, e1, e2,
    show i + 1 + 1 = i + 2 from by omega, show sb + 1 + 1 = sb + 2 from by omega]

/-- The encoder's whole output on `altRow` from an even position `i = sb` with
`2 * n` pixels to go before the cap fires: `n` copies of `[129, 1, 1]`, after
which the iteration whose incremented safety-break counter reaches 4097 emits
nothing and the last two pixels are silently dropped. -/
theorem altRow_enc (n : Nat) : ∀ fuel i sb, i % 2 = 0 → i + 2 * n = 4096 → sb = i →
    encodeLoop altRow true 3 (2 * n + fuel + 1) i sb =
      (List.replicate n ([129, 1, 1] : List Nat)).flatten := by
  induction n with
  | zero =>
    intro fuel i sb hi2 hi hsb
    obtain rfl : i = 4096 := by omega
    obtain rfl : sb = 4096 := by omega
    rw [show 2 * 0 + fuel + 1 = fuel + 1 from by omega]
    simp [encodeLoop, altRow_length]
  | succ n ih =>
    intro fuel i sb hi2 hi hsb
    have hp := altRow_enc_pair (2 * n + fuel + 1) i sb hi2 (by omega) (by omega)
    rw [show 2 * (n + 1) + fuel + 1 = 2 * n + fuel + 1 + 2 from by omega, hp,
      ih fuel (i + 2) (sb + 2) (by omega) (by omega) (by omega),
      List.replicate_succ, List.flatten_cons]
    rfl

/-- The truncated encoding of `altRow` in Normal mode. -/
theorem altRow_encode : Irongrp.encode_grp_rle_row altRow CompressionType.Normal = altE := by
  have h := altRow_enc 2048 0 0 0 (by omega) (by omega) rfl
  rw [show (2 * 2048 + 0 + 1 : Nat) = 4097 from by omega] at h
  exact h

/-- Running the decoder over the truncated stream never touches pixel 4097:
each instruction pair advances two pixel positions and three stream bytes, the
only write of a pair lands at the odd position `x + 1 ≤ 4095`, and the stream
is exhausted at pixel position 4096. -/
theorem altE_dec (n : Nat) : ∀ fuel x off out,
    x + 2 * n = 4096 → off + 3 * n = 6144 →
    altE.drop off = (List.replicate n ([129, 1, 1] : List Nat)).flatten →
    out.length = 4098 →
    (Irongrp.decodeLoop altE 4098 (2 * n + fuel + 1) x off out).1.getD 4097 0 =
      out.getD 4097 0 := by
  induction n with
  | zero =>
    intro fuel x off out hx hoff hdrop hlen
    obtain rfl : x = 4096 := by omega
    obtain rfl : off = 6144 := by omega
    have hE := altE_length
    rw [show 2 * 0 + fuel + 1 = fuel + 1 from by omega, decodeLoop,
      if_neg (by omega : ¬ ((4096 : Nat) < 4098 ∧ (6144 : Nat) < altE.length))]
  | succ n ih =>
    intro fuel x off out hx hoff hdrop hlen
    have hE := altE_length
    rw [List.replicate_succ, List.flatten_cons] at hdrop
    obtain ⟨ho1, hc1, hd1⟩ := drop_cons_facts altE off 129
      (1 :: 1 :: (List.replicate n ([129, 1, 1] : List Nat)).flatten) hdrop
    obtain ⟨ho2, hc2, hd2⟩ := drop_cons_facts altE (off + 1) 1
      (1 :: (List.replicate n ([129, 1, 1] : List Nat)).flatten) hd1
    obtain ⟨ho3, hc3, hd3⟩ := drop_cons_facts altE (off + 1 + 1) 1
      ((List.replicate n ([129, 1, 1] : List Nat)).flatten) hd2
    rw [show off + 1 + 1 + 1 = off + 3 from by omega] at hd3
    rw [show 2 * (n + 1) + fuel + 1 = 2 * n + fuel + 1 + 1 + 1 from by omega]
    rw [decode_step_transparent altE 4098 (2 * n + fuel + 1 + 1) x off 1 out
      (by omega) ho1 (by omega) (hc1.trans (by omega))]
    rw [decode_step_literal altE 4098 (2 * n + fuel + 1) (x + 1) (off + 1) 1 out
      (by omega) ho2 (by omega) (by omega) hc2]
    have hcopy : copyLit altE 4098 out (x + 1) (off + 1 + 1) 1 =
        (out.set (x + 1) 1, x + 2, off + 3) := by
      simp only [copyLit]
      rw [if_neg (by omega : ¬ (x + 1 ≥ 4098 ∨ off + 1 + 1 ≥ altE.length)), hc3,
        show x + 1 + 1 = x + 2 from by omega, show off + 1 + 1 + 1 = off + 3 from by omega]
    rw [hcopy]
    have hrec := ih fuel (x + 2) (off + 3) (out.set (x + 1) 1) (by omega) (by omega) hd3
      (by rw [List.length_set, hlen])
    dsimp only
    rw [hrec]
    have hne : x + 1 ≠ 4097 := by omega
    simp only [List.getD, List.get?_eq_getElem?, List.getElem?_set_ne hne]

theorem replicate_getD (n j : Nat) : (List.replicate n (0 : Nat)).getD j 0 = 0 := by
  simp only [List.getD, List.get?_eq_getElem?, List.getElem?_replicate]
  split <;> rfl

/-- Decoding the truncated stream leaves pixel 4097 at 0. -/
theorem altE_decode_getD :
    (Irongrp.decode_grp_rle_row altE 4098).1.getD 4097 0 = 0 := by
  have hE := altE_length
  have h := altE_dec 2048 2048 0 0 (List.replicate 4098 0) (by omega) (by omega)
    (by simp only [List.drop_zero]; rfl) (by rw [List.length_replicate])
  rw [show 2 * 2048 + 2048 + 1 = 6145 from by omega] at h
  show (Irongrp.decodeLoop altE 4098 (altE.length + 1) 0 0
    (List.replicate 4098 0)).1.getD 4097 0 = 0
  rw [hE, show (6144 : Nat) + 1 = 6145 from by omega, h]
  exact replicate_getD 4098 4097

/-- **C1** counterexample: on the alternating 4098-pixel row 0,1,0,1,… the
encoder's safety-break cap truncates the output after 4096 iterations, so the
decoded row differs from the original (pixel 4097 decodes to 0 instead of 1);
the unqualified round-trip claim is therefore false. -/
theorem c1_counterexample_safety_break :
    (Irongrp.decode_grp_rle_row
      (Irongrp.encode_grp_rle_row altRow CompressionType.Normal) altRow.length).1 ≠ altRow := by
  rw [altRow_encode, altRow_length]
  intro hcontra
  have h0 := altE_decode_getD
  rw [hcontra] at h0
  rw [altRow_getD 4097 (by omega)] at h0
  omega

end Irongrp
